import Mathlib

/-!
Shallow embedding of the `re_arraylrst` repository: the raw buffer type
`Array<T>` (src/array.rs, embedded here as `Arr`) and the growable container
`List<T>` (src/list.rs, embedded here as `RList`, since `List` is taken by
Lean's own list type).

Modelling conventions:
* An `Arr α` is the sequence of `size` elements held by the allocation.  The
  Rust buffer is always fully initialised (allocation is zero-filled), so the
  zero bit-pattern of the element type is passed around explicitly as `z`.
* Machine integers (`usize`) are `Nat`.  A `usize` subtraction or a `% 0`
  that would panic in Rust is modelled as the explicit error `Err.panicked`.
* Reads or writes outside an allocation are undefined behaviour in the Rust
  source; where a whole operation's outcome depends on such an access the
  model returns `Err.undefinedBehaviour`.  The single exception is
  `Arr.shift_from`, whose second bulk copy can extend past the end of the
  allocation (this happens on every rightward shift issued by
  `List::insert`); there the model keeps the in-allocation effect of the
  copy, because the observable state of the buffer is exactly its `size`
  elements (see `writeFrom`).
* Fallible Rust functions returning `Result<_, io::Error>` become
  `Except Err _`; the error kinds follow the spec's taxonomy.
-/

/-- Error kinds of the library, following the spec's error taxonomy plus two
markers for outcomes the Rust type system does not surface as values: a
`usize` arithmetic panic and an out-of-bounds (undefined-behaviour) access. -/
inductive Err where
  | indexOutOfRange
  | insufficientSpace
  | emptyContainer
  | allocationError
  | panicked
  | undefinedBehaviour
deriving DecidableEq, Repr

deriving instance DecidableEq for Except

/-- Embedding of `Array<T>` (src/array.rs): `data` is the contents of the
allocation; the `size` field of the Rust struct is `data.length`. -/
structure Arr (α : Type) where
  data : List α
deriving DecidableEq, Repr

/-- The `size` field of `Array<T>`: the number of elements the allocation
holds. -/
def Arr.size (a : Arr α) : Nat :=
  a.data.length

/-- Embeds `Array::new(size)`: a zero-filled allocation of `size` elements (`z` is
the zero bit-pattern of the element type).  Layout computation failure is
unreachable for realistic sizes and is not modelled. -/
def Arr.new (z : α) (size : Nat) : Arr α :=
  ⟨List.replicate size z⟩

/-- Embeds `Array::get(index)`: bounds-checked bitwise copy of the element at
`index`; fails with `IndexOutOfRange` if `index >= size`. -/
def Arr.get (a : Arr α) (index : Nat) : Except Err α :=
  if index ≥ a.size then .error .indexOutOfRange
  else
    match a.data[index]? with
    | some v => .ok v
    | none => .error .indexOutOfRange

/-- Embeds `Array::set(index, value)`: bounds-checked overwrite returning the old
value; the state-passing embedding returns the new buffer alongside it. -/
def Arr.set (a : Arr α) (index : Nat) (value : α) : Except Err (α × Arr α) :=
  if index ≥ a.size then .error .indexOutOfRange
  else
    match a.data[index]? with
    | some old => .ok (old, ⟨a.data.set index value⟩)
    | none => .error .indexOutOfRange

/-- Embeds `Array::clear()`: replaces the allocation with a fresh zero-filled one of
the same size. -/
def Arr.clear (z : α) (a : Arr α) : Arr α :=
  ⟨List.replicate a.size z⟩

/-- Embeds `Array::resize(new_size)`: fresh zero-filled allocation of `new_size`
elements into which `min(size, new_size)` old elements are copied. -/
def Arr.resize (z : α) (a : Arr α) (new_size : Nat) : Arr α :=
  ⟨a.data.take (min new_size a.size) ++ List.replicate (new_size - min new_size a.size) z⟩

/-- Effect of `copy_nonoverlapping(src, dst.add(k), src.len)` on the
destination allocation `dst`: elements `[k, k + src.len)` are overwritten in
place.  Any part of the write falling beyond the end of `dst` touches memory
outside the allocation and therefore does not appear in the modelled state
(the allocation is exactly `dst.length` elements). -/
def writeFrom (dst : List α) (k : Nat) (src : List α) : List α :=
  dst.take k ++ src.take (dst.length - k) ++ dst.drop (k + src.length)

/-- Embeds `Array::shift_from(index, amt)` (src/array.rs lines 120-133): clone self
into `buf`, `clear()` self, copy the prefix `[0, index)` back, then copy
`buf[index..size]` to position `index + amt`.  A prefix copy or `buf.size -
index` with `index > size`, or a negative destination offset, would read or
write far outside the allocations and is modelled as
`Err.undefinedBehaviour`.  The suffix copy may extend past the end of the
allocation (it always does for `amt = 1`, the rightward shift issued by
`List::insert`, whose last element lands one past the end); `writeFrom`
records the in-allocation effect of that write. -/
def Arr.shift_from (z : α) (a : Arr α) (index : Nat) (amt : Int) : Except Err (Arr α) :=
  if index > a.size ∨ (index : Int) + amt < 0 then .error .undefinedBehaviour
  else
    let cleared := List.replicate a.size z
    let step1 := writeFrom cleared 0 (a.data.take index)
    let step2 := writeFrom step1 ((index : Int) + amt).toNat (a.data.drop index)
    .ok ⟨step2⟩

/-- Loop body of `Array::get_slice`: for each absolute index `i` of the
iteration range, if `i % step == 0` the element `self.get(i)` is written into
the output buffer at position `ins` (both calls are `unwrap`ped in the Rust
source, so a failing call is a panic); `i % 0` panics in Rust. -/
def sliceLoop (a : Arr α) (step : Nat) : List Nat → Arr α → Nat → Except Err (Arr α × Nat)
  | [], arr, ins => .ok (arr, ins)
  | i :: rest, arr, ins =>
    if step = 0 then .error .panicked
    else if i % step = 0 then
      match a.get i with
      | .error _ => .error .panicked
      | .ok v =>
        match arr.set ins v with
        | .error _ => .error .panicked
        | .ok (_, arr2) => sliceLoop a step rest arr2 (ins + 1)
    else sliceLoop a step rest arr ins

/-- Embeds `Array::get_slice(start, stop, step)` (src/array.rs lines 44-63): `stop`
is clamped to `size`; a buffer of `stop - start` elements is allocated (the
`usize` subtraction panics when `start` exceeds the clamped `stop`); every
absolute index `i` in `[start, stop)` with `i % step == 0` is appended; the
buffer is finally resized down to the number of matches. -/
def Arr.get_slice (z : α) (a : Arr α) (start stop step : Nat) : Except Err (Arr α) :=
  let stop2 := if stop > a.size then a.size else stop
  if start > stop2 then .error .panicked
  else
    match sliceLoop a step (List.range' start (stop2 - start)) (Arr.new z (stop2 - start)) 0 with
    | .error e => .error e
    | .ok (arr, ins) => .ok (arr.resize z ins)

/-- Embeds `Array::clone_into(other)` (src/array.rs lines 173-177): fails with
`InsufficientSpace` when `other.size < self.size`, otherwise copies exactly
`self.size` elements to the front of `other` (fully in bounds on both
sides). -/
def Arr.clone_into (a : Arr α) (other : Arr α) : Except Err (Arr α) :=
  if other.size < a.size then .error .insufficientSpace
  else .ok ⟨a.data ++ other.data.drop a.size⟩

/-- Embeds `Array::clone_from(other)` (src/array.rs lines 156-162): fails with
`InsufficientSpace` when `self.size < other.size`; otherwise it copies
`self.size` (the destination's size) elements from `other`, so whenever
`other.size < self.size` the copy reads `self.size - other.size` elements
past the end of `other`'s allocation — undefined behaviour, modelled as
`Err.undefinedBehaviour`.  Only the equal-size case is a well-defined full
copy. -/
def Arr.clone_from (a : Arr α) (other : Arr α) : Except Err (Arr α) :=
  if a.size < other.size then .error .insufficientSpace
  else if other.size < a.size then .error .undefinedBehaviour
  else .ok ⟨other.data⟩

/-- Embeds `Clone for Array<T>`: `Array::new(self.size)` followed by
`clone_from(self)` between equal-size buffers, i.e. an exact copy of the
contents into a fresh allocation. -/
def Arr.clone (a : Arr α) : Arr α :=
  ⟨a.data⟩

/-- Embeds `Array::split(index)` (src/array.rs lines 135-151): computes the two
half sizes (clamping `index` into `[0, size]`), allocates both halves and
fills each through `get_slice(_, _, 1)` plus `clone_into`. -/
def Arr.split (z : α) (a : Arr α) (index : Nat) : Except Err (Arr α × Arr α) :=
  let lsize := if index ≥ a.size then a.size else if index = 0 then 0 else index
  let rsize := if index ≥ a.size then 0 else if index = 0 then a.size else a.size - index
  match a.get_slice z 0 lsize 1 with
  | .error e => .error e
  | .ok s1 =>
    match s1.clone_into (Arr.new z lsize) with
    | .error e => .error e
    | .ok left =>
      match a.get_slice z lsize a.size 1 with
      | .error e => .error e
      | .ok s2 =>
        match s2.clone_into (Arr.new z rsize) with
        | .error e => .error e
        | .ok right => .ok (left, right)

/-- Embeds `Array::from_iter(i)` (src/array.rs lines 109-118): collect the source
into a vector, allocate a zero-filled buffer of exactly its length, and set
every position to the corresponding item. -/
def Arr.from_iter (z : α) (l : List α) : Arr α :=
  (l.enum.foldl (fun (arr : Arr α) p => ⟨arr.data.set p.1 p.2⟩) (Arr.new z l.length))

/-- Embedding of `ArrayIter<T>` (src/array.rs lines 257-266): the iterator
keeps the buffer pointer and size (here, the buffer contents) and a cursor
starting at 0. -/
structure ArrayIter (α : Type) where
  arr : Arr α
  cur : Nat
deriving DecidableEq, Repr

/-- Embeds `Array::into_iter` (src/array.rs lines 248-255).  In the Rust source the
iterator captures only the raw pointer while the consumed `Array` is dropped
(and its allocation freed) when `into_iter` returns, so every subsequent
read is a use-after-free; the model gives the iterator the buffer contents,
which is what those reads observe while the freed block is untouched. -/
def Arr.into_iter (a : Arr α) : ArrayIter α :=
  ⟨a, 0⟩

/-- Embeds `ArrayIter::next` (src/array.rs lines 267-278): increments `cur` first,
returns `None` when the incremented cursor equals `size`, and otherwise
reads the element at `cur - 1`; when that read itself is out of bounds (for
example on a size-0 buffer) it is undefined behaviour. -/
def ArrayIter.next (it : ArrayIter α) : Except Err (Option α × ArrayIter α) :=
  let cur := it.cur + 1
  if cur = it.arr.size then .ok (none, ⟨it.arr, cur⟩)
  else
    match it.arr.data[cur - 1]? with
    | some v => .ok (some v, ⟨it.arr, cur⟩)
    | none => .error .undefinedBehaviour

/-- Runs `ArrayIter.next` a fixed number of times, collecting the returned
options in order (state-passing form of repeated `iter.next()` calls). -/
def iterSteps : ArrayIter α → Nat → Except Err (List (Option α) × ArrayIter α)
  | it, 0 => .ok ([], it)
  | it, k + 1 =>
    match it.next with
    | .error e => .error e
    | .ok (o, it2) =>
      match iterSteps it2 k with
      | .error e => .error e
      | .ok (os, itf) => .ok (o :: os, itf)

/-- Fuel-driven computation of `usize::is_power_of_two`; structural recursion
on the fuel keeps it kernel-reducible.  `isPow2F f n` is correct whenever
`n ≤ f`. -/
def isPow2F : Nat → Nat → Bool
  | 0, _ => false
  | _ + 1, 0 => false
  | _ + 1, 1 => true
  | f + 1, n + 2 => decide ((n + 2) % 2 = 0) && isPow2F f ((n + 2) / 2)

/-- Model of `usize::is_power_of_two`: true exactly on `1, 2, 4, 8, ...`. -/
def is_power_of_two (n : Nat) : Bool :=
  isPow2F n n

/-- Fuel-driven ceiling base-2 logarithm; structural recursion on the fuel
keeps it kernel-reducible.  `clog2F f n` is correct whenever `n ≤ f`. -/
def clog2F : Nat → Nat → Nat
  | 0, _ => 0
  | _ + 1, 0 => 0
  | _ + 1, 1 => 0
  | f + 1, n + 2 => clog2F f ((n + 2 + 1) / 2) + 1

/-- Model of `usize::next_power_of_two`: the smallest power of two greater than or
equal to `n` (1 for `n = 0`). -/
def next_power_of_two (n : Nat) : Nat :=
  2 ^ clog2F n n

/-- Embedding of `List<T>` (src/list.rs lines 17-21): the wrapped buffer,
the logical length `len` and the capacity `cap`.  Named `RList` because
`List` is Lean's own list type. -/
structure RList (α : Type) where
  arr : Arr α
  len : Nat
  cap : Nat
deriving DecidableEq, Repr

/-- Embeds `List::new()`: a zero-filled buffer of the default capacity 4, length
0. -/
def RList.new (z : α) : RList α :=
  ⟨Arr.new z 4, 0, 4⟩

/-- Embeds `List::with_capacity(cap)`. -/
def RList.with_capacity (z : α) (cap : Nat) : RList α :=
  ⟨Arr.new z cap, 0, cap⟩

/-- Embeds `List::from_iter(i)` (src/list.rs lines 43-58): materialise the source,
then build the buffer via `Array::from_iter` with `len = cap` = its
length. -/
def RList.from_iter (z : α) (l : List α) : RList α :=
  ⟨Arr.from_iter z l, l.length, l.length⟩

/-- Embeds `List::get(index)` (src/list.rs lines 61-68): fails with
`IndexOutOfRange` when `index >= len`, otherwise delegates to
`Array::get`. -/
def RList.get (l : RList α) (index : Nat) : Except Err α :=
  if index ≥ l.len then .error .indexOutOfRange
  else l.arr.get index

/-- The logical contents of a `List<T>`: the first `len` elements of the
buffer. -/
def RList.toModel (l : RList α) : List α :=
  l.arr.data.take l.len

/-- Embeds `List::grow` (src/list.rs lines 157-161): double the capacity if it is a
power of two, otherwise round it up to the next power of two, then resize
the buffer to the new capacity. -/
def RList.grow (z : α) (l : RList α) : RList α :=
  let cap2 := if is_power_of_two l.cap then l.cap * 2 else next_power_of_two l.cap
  ⟨l.arr.resize z cap2, l.len, cap2⟩

/-- The next-lower power-of-two threshold computed by `List::del` and
`List::shrink`: `cap / 2` if `cap` is a power of two, else
`cap.next_power_of_two() / 2`. -/
def lowerPow2 (cap : Nat) : Nat :=
  if is_power_of_two cap then cap / 2 else next_power_of_two cap / 2

/-- Embeds `List::shrink` (src/list.rs lines 164-178): split a clone of the buffer
at the lower power-of-two size, keep the left half as the new buffer with
that capacity (the returned dropped right half is discarded by the caller,
`List::del`). -/
def RList.shrink (z : α) (l : RList α) : Except Err (RList α) :=
  match l.arr.clone.split z (lowerPow2 l.cap) with
  | .error _ => .error .allocationError
  | .ok (a, _dropped) => .ok ⟨a, l.len, lowerPow2 l.cap⟩

/-- Embeds `List::insert(index, value)` (src/list.rs lines 114-129): bound check
`index > len`, grow when `len + 1 >= cap`, shift the buffer right by one
from `index`, write the value, increment `len`. -/
def RList.insert (z : α) (l : RList α) (index : Nat) (value : α) : Except Err (RList α) :=
  if index > l.len then .error .indexOutOfRange
  else
    let l2 := if l.len + 1 ≥ l.cap then l.grow z else l
    match l2.arr.shift_from z index 1 with
    | .error e => .error e
    | .ok arr1 =>
      match arr1.set index value with
      | .error e => .error e
      | .ok (_, arr2) => .ok ⟨arr2, l2.len + 1, l2.cap⟩

/-- Embeds `List::del(index)` (src/list.rs lines 133-154): bound check is `index >
len` (note: this admits `index == len`), then the empty check, then a
possible shrink, then read the value at `index`, shift left from
`index + 1`, decrement `len`. -/
def RList.del (z : α) (l : RList α) (index : Nat) : Except Err (α × RList α) :=
  if index > l.len then .error .indexOutOfRange
  else if l.len = 0 then .error .emptyContainer
  else
    match (if l.len < lowerPow2 l.cap then l.shrink z else .ok l) with
    | .error e => .error e
    | .ok l2 =>
      match l2.arr.get index with
      | .error e => .error e
      | .ok old =>
        match l2.arr.shift_from z (index + 1) (-1) with
        | .error e => .error e
        | .ok arr2 => .ok (old, ⟨arr2, l2.len - 1, l2.cap⟩)

/-- Embeds `List::push_front(value)`: `insert(0, value)`. -/
def RList.push_front (z : α) (l : RList α) (value : α) : Except Err (RList α) :=
  l.insert z 0 value

/-- Embeds `List::push_back(value)`: `insert(len, value)`. -/
def RList.push_back (z : α) (l : RList α) (value : α) : Except Err (RList α) :=
  l.insert z l.len value

/-- Embeds `List::push(index, value)`: `insert(index, value)`. -/
def RList.push (z : α) (l : RList α) (index : Nat) (value : α) : Except Err (RList α) :=
  l.insert z index value

/-- Embeds `List::pop(index)`: `del(index)`. -/
def RList.pop (z : α) (l : RList α) (index : Nat) : Except Err (α × RList α) :=
  l.del z index

/-- Embeds `List::pop_back()` (src/list.rs lines 99-101): `del(len - 1)` with no
empty-container special case, so on an empty list the `usize` subtraction
`0 - 1` underflows — a panic, modelled as `Err.panicked`. -/
def RList.pop_back (z : α) (l : RList α) : Except Err (α × RList α) :=
  if l.len = 0 then .error .panicked
  else l.del z (l.len - 1)

/-- Embeds `List::pop_front()`: `del(0)`. -/
def RList.pop_front (z : α) (l : RList α) : Except Err (α × RList α) :=
  l.del z 0

/-- Embeds `Extend for List<T>` (src/list.rs lines 215-222): push each value of the
source to the back in order (each push is `unwrap`ped in the Rust source;
the embedding propagates the impossible error instead). -/
def RList.extend (z : α) (l : RList α) (vs : List α) : Except Err (RList α) :=
  vs.foldlM (fun acc v => acc.push_back z v) l

/-- Embeds `Clone for List<T>`: clone the buffer, carry over `len` and `cap`. -/
def RList.clone (l : RList α) : RList α :=
  ⟨l.arr.clone, l.len, l.cap⟩

/-- The representation invariant of `List<T>` stated by the spec:
`length ≤ capacity == buffer size`. -/
abbrev ListInv (l : RList α) : Prop :=
  l.len ≤ l.cap ∧ l.cap = l.arr.size

/-! Arithmetic facts about the fuel-driven power-of-two helpers. -/

/-- Fuel irrelevance for `isPow2F`: any fuel at least the argument gives the
same answer. -/
theorem isPow2F_fuel (n : Nat) : ∀ f g : Nat, n ≤ f → n ≤ g → isPow2F f n = isPow2F g n := by
  induction n using Nat.strong_induction_on with
  | _ n ih =>
    intro f g hf hg
    match n, f, g with
    | 0, 0, 0 => rfl
    | 0, 0, _ + 1 => rfl
    | 0, _ + 1, 0 => rfl
    | 0, _ + 1, _ + 1 => rfl
    | 1, f + 1, g + 1 => rfl
    | n + 2, f + 1, g + 1 =>
      simp only [isPow2F]
      have h2 : (n + 2) / 2 < n + 2 := by omega
      have := ih ((n + 2) / 2) h2 f g (by omega) (by omega)
      rw [this]

/-- Fuel irrelevance for `clog2F`. -/
theorem clog2F_fuel (n : Nat) : ∀ f g : Nat, n ≤ f → n ≤ g → clog2F f n = clog2F g n := by
  induction n using Nat.strong_induction_on with
  | _ n ih =>
    intro f g hf hg
    match n, f, g with
    | 0, 0, 0 => rfl
    | 0, 0, _ + 1 => rfl
    | 0, _ + 1, 0 => rfl
    | 0, _ + 1, _ + 1 => rfl
    | 1, f + 1, g + 1 => rfl
    | n + 2, f + 1, g + 1 =>
      simp only [clog2F]
      have h2 : (n + 2 + 1) / 2 < n + 2 := by omega
      have := ih ((n + 2 + 1) / 2) h2 f g (by omega) (by omega)
      rw [this]

/-- Unfolding rule for `next_power_of_two` below 2. -/
theorem next_power_of_two_le_one {n : Nat} (h : n ≤ 1) : next_power_of_two n = 1 := by
  interval_cases n
  · rfl
  · rfl

/-- Recurrence for `next_power_of_two` at arguments of at least 2. -/
theorem next_power_of_two_rec {n : Nat} (h : 2 ≤ n) :
    next_power_of_two n = 2 * next_power_of_two ((n + 1) / 2) := by
  obtain ⟨m, rfl⟩ : ∃ m, n = m + 2 := ⟨n - 2, by omega⟩
  show 2 ^ clog2F (m + 2) (m + 2) = 2 * 2 ^ clog2F ((m + 2 + 1) / 2) ((m + 2 + 1) / 2)
  have hm : m + 2 = m + 1 + 1 := rfl
  simp only [clog2F]
  rw [clog2F_fuel ((m + 2 + 1) / 2) (m + 1) ((m + 2 + 1) / 2) (by omega) (le_refl _)]
  rw [pow_succ, Nat.mul_comm]

/-- Lower bound: `n ≤ n.next_power_of_two()`. -/
theorem le_next_power_of_two : ∀ n : Nat, n ≤ next_power_of_two n := by
  intro n
  induction n using Nat.strong_induction_on with
  | _ n ih =>
    by_cases h : n ≤ 1
    · rw [next_power_of_two_le_one h]; omega
    · rw [next_power_of_two_rec (by omega)]
      have hh : (n + 1) / 2 < n := by omega
      have := ih ((n + 1) / 2) hh
      omega

/-- The value of `next_power_of_two` is always a power of two. -/
theorem next_power_of_two_pow (n : Nat) : ∃ k, next_power_of_two n = 2 ^ k :=
  ⟨clog2F n n, rfl⟩

/-- Minimality: `next_power_of_two n` is at most any power of two that is at
least `n`. -/
theorem next_power_of_two_min : ∀ n k : Nat, n ≤ 2 ^ k → next_power_of_two n ≤ 2 ^ k := by
  intro n
  induction n using Nat.strong_induction_on with
  | _ n ih =>
    intro k hk
    by_cases h : n ≤ 1
    · rw [next_power_of_two_le_one h]
      exact Nat.one_le_two_pow
    · rw [next_power_of_two_rec (by omega)]
      have hk1 : 1 ≤ k := by
        by_contra hc
        interval_cases k <;> omega
      obtain ⟨k2, rfl⟩ : ∃ k2, k = k2 + 1 := ⟨k - 1, by omega⟩
      have hpow : 2 ^ (k2 + 1) = 2 * 2 ^ k2 := by ring
      have hle : (n + 1) / 2 ≤ 2 ^ k2 := by omega
      have := ih ((n + 1) / 2) (by omega) k2 hle
      omega

/-- Upper bound: for `n ≥ 2`, `next_power_of_two n ≤ 2 n - 2`. -/
theorem next_power_of_two_le : ∀ n : Nat, 2 ≤ n → next_power_of_two n ≤ 2 * n - 2 := by
  intro n
  induction n using Nat.strong_induction_on with
  | _ n ih =>
    intro h2
    by_cases h : n ≤ 2
    · have : n = 2 := by omega
      subst this
      have : next_power_of_two 2 = 2 := rfl
      omega
    · rw [next_power_of_two_rec (by omega)]
      have hm : 2 ≤ (n + 1) / 2 := by omega
      have := ih ((n + 1) / 2) (by omega) hm
      omega

/-- Soundness: `is_power_of_two` holds on every power of two. -/
theorem is_power_of_two_two_pow : ∀ k : Nat, is_power_of_two (2 ^ k) = true := by
  intro k
  induction k with
  | zero => rfl
  | succ k ih =>
    have h2 : 2 ^ (k + 1) = 2 ^ k * 2 := by ring
    have hpos : 1 ≤ 2 ^ k := Nat.one_le_two_pow
    obtain ⟨m, hm⟩ : ∃ m, 2 ^ (k + 1) = m + 2 := ⟨2 ^ (k + 1) - 2, by omega⟩
    show isPow2F (2 ^ (k + 1)) (2 ^ (k + 1)) = true
    rw [hm]
    simp only [isPow2F]
    have hdiv : (m + 2) / 2 = 2 ^ k := by omega
    have heven : (m + 2) % 2 = 0 := by omega
    rw [hdiv, heven]
    simp only [decide_True, Bool.true_and]
    rw [isPow2F_fuel (2 ^ k) (m + 1) (2 ^ k) (by omega) (le_refl _)]
    exact ih

/-- Zero case: `is_power_of_two 0` is false (so the true branch implies positivity). -/
theorem is_power_of_two_zero : is_power_of_two 0 = false := rfl

/-- The grown capacity computed by `List::grow`. -/
def growCap (cap : Nat) : Nat :=
  if is_power_of_two cap then cap * 2 else next_power_of_two cap

/-- The capacity strictly increases at every grow. -/
theorem lt_growCap (cap : Nat) : cap < growCap cap := by
  unfold growCap
  by_cases h : is_power_of_two cap = true
  · rw [if_pos h]
    have : cap ≠ 0 := by
      intro h0
      rw [h0] at h
      exact absurd h (by rw [is_power_of_two_zero]; simp)
    omega
  · rw [if_neg h]
    have hle := le_next_power_of_two cap
    rcases Nat.lt_or_ge cap (next_power_of_two cap) with hlt | hge
    · exact hlt
    · exfalso
      have heq : next_power_of_two cap = cap := by omega
      obtain ⟨k, hk⟩ := next_power_of_two_pow cap
      rw [heq] at hk
      rw [hk] at h
      exact h (is_power_of_two_two_pow k)

/-- The shrink threshold never exceeds the capacity. -/
theorem lowerPow2_le (cap : Nat) : lowerPow2 cap ≤ cap := by
  unfold lowerPow2
  by_cases h : is_power_of_two cap = true
  · rw [if_pos h]; omega
  · rw [if_neg h]
    by_cases h2 : 2 ≤ cap
    · have := next_power_of_two_le cap h2
      omega
    · have h1 : cap ≤ 1 := by omega
      rw [next_power_of_two_le_one h1]
      have : cap ≠ 1 := by
        intro hc
        rw [hc] at h
        exact h rfl
      omega

/-! Basic facts about the buffer operations. -/

theorem Arr.size_mk (d : List α) : (Arr.mk d).size = d.length := rfl

/-- An in-bounds `Array::get` returns the stored element (written with the
`getD` accessor so the zero element `z` can name it uniformly). -/
theorem Arr.get_ok {a : Arr α} {i : Nat} (z : α) (h : i < a.size) :
    a.get i = .ok (a.data.getD i z) := by
  unfold Arr.get
  rw [if_neg (by omega)]
  have hlt : i < a.data.length := h
  rw [List.getElem?_eq_getElem hlt]
  simp [List.getElem?_eq_getElem hlt]

/-- An in-bounds `Array::get` in `getElem?` form. -/
theorem Arr.get_ok_of_some {a : Arr α} {i : Nat} {w : α} (h : a.data[i]? = some w) :
    a.get i = .ok w := by
  have hlt : i < a.data.length := by
    rcases List.getElem?_eq_some_iff.mp h with ⟨h1, _⟩
    exact h1
  unfold Arr.get
  rw [if_neg (by exact Nat.not_le.mpr hlt), h]

/-- An in-bounds `Array::set` returns the old element and the updated
buffer. -/
theorem Arr.set_ok {a : Arr α} {i : Nat} {w : α} (v : α) (h : a.data[i]? = some w) :
    a.set i v = .ok (w, ⟨a.data.set i v⟩) := by
  have hlt : i < a.data.length := by
    rcases List.getElem?_eq_some_iff.mp h with ⟨h1, _⟩
    exact h1
  unfold Arr.set
  rw [if_neg (by exact Nat.not_le.mpr hlt), h]

theorem writeFrom_length (dst : List α) (k : Nat) (src : List α) :
    (writeFrom dst k src).length = dst.length := by
  simp only [writeFrom, List.length_append, List.length_take, List.length_drop]
  omega

/-- A fully in-bounds bulk write replaces the middle segment. -/
theorem writeFrom_full {dst src : List α} {k : Nat} (h : k + src.length ≤ dst.length) :
    writeFrom dst k src = dst.take k ++ src ++ dst.drop (k + src.length) := by
  unfold writeFrom
  rw [List.take_of_length_le (show src.length ≤ dst.length - k by omega)]

/-- A bulk write reaching the end of the allocation keeps only the part of
the source that fits. -/
theorem writeFrom_trunc {dst src : List α} {k : Nat} (_h1 : k ≤ dst.length)
    (h2 : dst.length ≤ k + src.length) :
    writeFrom dst k src = dst.take k ++ src.take (dst.length - k) := by
  unfold writeFrom
  rw [List.drop_eq_nil_of_le (by omega), List.append_nil]

/-- The element sitting right after a known prefix. -/
theorem getElem?_append_length (pre : List α) (x : α) (post : List α) :
    (pre ++ x :: post)[pre.length]? = some x := by
  rw [List.getElem?_append_right (Nat.le_refl _)]
  simp

/-- Setting the position right after a known prefix. -/
theorem set_append_length (pre : List α) (x v : α) (post : List α) :
    (pre ++ x :: post).set pre.length v = pre ++ v :: post := by
  rw [List.set_append_right _ _ (Nat.le_refl _)]
  simp

/-- Effect of `Array::shift_from(i, 1)` on an in-bounds start index: the prefix stays,
a junk `z` slot opens at `i` (later overwritten by `List::insert`), and the
suffix moves right by one, its last element falling off the end of the
allocation. -/
theorem Arr.shift_from_right (z : α) (a : Arr α) (i : Nat) (h : i < a.size) :
    a.shift_from z i 1 =
      .ok ⟨a.data.take i ++ z :: (a.data.drop i).take (a.size - i - 1)⟩ := by
  have hc : ¬(i > a.size ∨ (i : Int) + 1 < 0) := by omega
  have hs : a.size = a.data.length := rfl
  have hlen_take : (a.data.take i).length = i := by
    simp only [List.length_take]
    omega
  have h1 : writeFrom (List.replicate a.size z) 0 (a.data.take i)
      = a.data.take i ++ List.replicate (a.size - i) z := by
    rw [writeFrom_full (by simp only [List.length_replicate]; omega)]
    simp only [List.take_zero, List.nil_append, Nat.zero_add, List.drop_replicate, hlen_take]
  have hlen1 : (a.data.take i ++ List.replicate (a.size - i) z).length = a.size := by
    simp only [List.length_append, List.length_replicate, hlen_take]
    omega
  have h2 : writeFrom (a.data.take i ++ List.replicate (a.size - i) z) (i + 1) (a.data.drop i)
      = a.data.take i ++ z :: (a.data.drop i).take (a.size - i - 1) := by
    rw [writeFrom_trunc (by omega) (by simp only [hlen1, List.length_drop]; omega)]
    rw [hlen1]
    rw [List.take_append_eq_append_take, List.take_take, hlen_take]
    have e1 : min (i + 1) i = i := by omega
    have e2 : i + 1 - i = 1 := by omega
    rw [e1, e2]
    have e3 : (List.replicate (a.size - i) z).take 1 = [z] := by
      rw [List.take_replicate]
      have : min 1 (a.size - i) = 1 := by omega
      rw [this]
      rfl
    rw [e3]
    have e4 : a.size - (i + 1) = a.size - i - 1 := by omega
    rw [e4, List.append_assoc]
    rfl
  unfold Arr.shift_from
  rw [if_neg hc]
  simp only [h1]
  have htoNat : ((i : Int) + 1).toNat = i + 1 := by omega
  rw [htoNat, h2]

/-- Effect of `Array::shift_from(i + 1, -1)`: close the gap at `i`; the tail of the
result beyond position `size - 1` is a junk slot (`rest`) that the caller's
logical length never reaches. -/
theorem Arr.shift_from_left (z : α) (a : Arr α) (i : Nat) (h : i + 1 ≤ a.size) :
    ∃ rest : List α,
      a.shift_from z (i + 1) (-1) = .ok ⟨a.data.take i ++ a.data.drop (i + 1) ++ rest⟩ ∧
      i + (a.size - (i + 1)) + rest.length = a.size := by
  have hc : ¬(i + 1 > a.size ∨ ((i + 1 : Nat) : Int) + (-1) < 0) := by omega
  have hs : a.size = a.data.length := rfl
  have hlen_take : (a.data.take (i + 1)).length = i + 1 := by
    simp only [List.length_take]
    omega
  have h1 : writeFrom (List.replicate a.size z) 0 (a.data.take (i + 1))
      = a.data.take (i + 1) ++ List.replicate (a.size - (i + 1)) z := by
    rw [writeFrom_full (by simp only [List.length_replicate]; omega)]
    simp only [List.take_zero, List.nil_append, Nat.zero_add, List.drop_replicate, hlen_take]
  have hlen1 : (a.data.take (i + 1) ++ List.replicate (a.size - (i + 1)) z).length = a.size := by
    simp only [List.length_append, List.length_replicate, hlen_take]
    omega
  refine ⟨(a.data.take (i + 1) ++ List.replicate (a.size - (i + 1)) z).drop (i + (a.size - (i + 1))), ?_, ?_⟩
  · have h2 : writeFrom (a.data.take (i + 1) ++ List.replicate (a.size - (i + 1)) z) i
        (a.data.drop (i + 1))
        = a.data.take i ++ a.data.drop (i + 1) ++
          (a.data.take (i + 1) ++ List.replicate (a.size - (i + 1)) z).drop (i + (a.size - (i + 1))) := by
      rw [writeFrom_full (by simp only [hlen1, List.length_drop]; omega)]
      have e1 : (a.data.take (i + 1) ++ List.replicate (a.size - (i + 1)) z).take i
          = a.data.take i := by
        rw [List.take_append_of_le_length (by omega), List.take_take]
        have : min i (i + 1) = i := by omega
        rw [this]
      have e2 : i + (a.data.drop (i + 1)).length = i + (a.size - (i + 1)) := by
        simp only [List.length_drop]
        omega
      rw [e1, e2]
    unfold Arr.shift_from
    rw [if_neg hc]
    simp only [h1]
    have htoNat : (((i + 1 : Nat) : Int) + (-1)).toNat = i := by omega
    rw [htoNat, h2]
  · simp only [List.length_drop, hlen1]
    omega

/-! Characterisation of `Array::resize`, the slice loop, `Array::get_slice`,
`Array::split` and `Array::from_iter`. -/

theorem Arr.ext2 {a b : Arr α} (h : a.data = b.data) : a = b := by
  cases a
  cases b
  cases h
  rfl

theorem Arr.resize_size (z : α) (a : Arr α) (n : Nat) : (a.resize z n).size = n := by
  simp only [Arr.resize, Arr.size, List.length_append, List.length_take, List.length_replicate]
  omega

/-- Growing `resize` appends zero-filled slots. -/
theorem Arr.resize_grow (z : α) (a : Arr α) {n : Nat} (h : a.size ≤ n) :
    (a.resize z n).data = a.data ++ List.replicate (n - a.size) z := by
  unfold Arr.resize
  have hmin : min n a.size = a.size := by omega
  rw [hmin]
  show a.data.take a.data.length ++ _ = _
  rw [List.take_length]

/-- Shrinking `resize` keeps the prefix that fits. -/
theorem Arr.resize_shrink (z : α) (a : Arr α) {n : Nat} (h : n ≤ a.size) :
    (a.resize z n).data = a.data.take n := by
  unfold Arr.resize
  have hmin : min n a.size = n := by omega
  rw [hmin]
  simp

/-- The step filter used by `Array::get_slice`, on absolute indices. -/
def stepHit (step : Nat) : Nat → Bool :=
  fun i => decide (i % step = 0)

/-- The values collected by the slice loop over a list of absolute
indices. -/
def sliceVals (z : α) (a : Arr α) (step : Nat) (l : List Nat) : List α :=
  (l.filter (stepHit step)).map (fun i => a.data.getD i z)

/-- Net effect of the `get_slice` loop: every index of `l` that sits on the
step is fetched and written at the next free output position; the loop never
hits an `unwrap` panic as long as all indices are in bounds and the output
has room for every match. -/
theorem sliceLoop_ok (z : α) (a : Arr α) (step : Nat) (hstep : step ≠ 0) :
    ∀ (l : List Nat) (pre rest : List α),
      (∀ i ∈ l, i < a.size) →
      l.countP (stepHit step) ≤ rest.length →
      sliceLoop a step l ⟨pre ++ rest⟩ pre.length =
        .ok (⟨pre ++ sliceVals z a step l ++ rest.drop (l.countP (stepHit step))⟩,
             pre.length + l.countP (stepHit step)) := by
  intro l
  induction l with
  | nil =>
    intro pre rest hmem hcnt
    simp [sliceLoop, sliceVals]
  | cons i l ih =>
    intro pre rest hmem hcnt
    by_cases hm : i % step = 0
    · have hp : stepHit step i = true := by simp [stepHit, hm]
      have hi : i < a.size := hmem i (List.mem_cons_self i l)
      have hcnt2 : l.countP (stepHit step) + 1 ≤ rest.length := by
        rw [List.countP_cons_of_pos (stepHit step) l hp] at hcnt
        omega
      obtain ⟨r, rest2, rfl⟩ : ∃ r rest2, rest = r :: rest2 := by
        cases rest with
        | nil => simp at hcnt2
        | cons r rest2 => exact ⟨r, rest2, rfl⟩
      have hget : a.get i = .ok (a.data.getD i z) := Arr.get_ok z hi
      have hset : (Arr.mk (pre ++ r :: rest2)).set pre.length (a.data.getD i z)
          = .ok (r, ⟨(pre ++ r :: rest2).set pre.length (a.data.getD i z)⟩) :=
        Arr.set_ok (a.data.getD i z) (getElem?_append_length pre r rest2)
      simp only [sliceLoop, if_neg hstep, if_pos hm, hget, hset]
      rw [set_append_length]
      have hsplit : pre ++ a.data.getD i z :: rest2 = (pre ++ [a.data.getD i z]) ++ rest2 := by
        simp
      rw [hsplit]
      have hplen : pre.length + 1 = (pre ++ [a.data.getD i z]).length := by simp
      rw [hplen]
      rw [ih (pre ++ [a.data.getD i z]) rest2 (fun j hj => hmem j (List.mem_cons_of_mem i hj))
        (by rw [List.length_cons] at hcnt2; omega)]
      simp only [sliceVals, List.filter_cons_of_pos hp, List.map_cons,
        List.countP_cons_of_pos (stepHit step) l hp, List.drop_succ_cons,
        List.append_assoc, List.singleton_append, List.length_append, List.length_singleton]
      have harith : pre.length + 1 + List.countP (stepHit step) l
          = pre.length + (List.countP (stepHit step) l + 1) := by omega
      rw [harith]
    · have hp : ¬(stepHit step i = true) := by simp [stepHit, hm]
      have hcnt2 : l.countP (stepHit step) ≤ rest.length := by
        rw [List.countP_cons_of_neg (stepHit step) l hp] at hcnt
        exact hcnt
      simp only [sliceLoop, if_neg hstep, if_neg hm]
      rw [ih pre rest (fun j hj => hmem j (List.mem_cons_of_mem i hj)) hcnt2]
      simp only [sliceVals, List.filter_cons_of_neg hp,
        List.countP_cons_of_neg (stepHit step) l hp]

/-- Mapping the stored elements over a contiguous index range reads out the
corresponding segment of the buffer. -/
theorem range'_map_getD (z : α) :
    ∀ (m s : Nat) (d : List α), s + m ≤ d.length →
      (List.range' s m).map (fun i => d.getD i z) = (d.drop s).take m := by
  intro m
  induction m with
  | zero =>
    intro s d h
    simp
  | succ m ih =>
    intro s d h
    rw [List.range'_succ, List.map_cons, ih (s + 1) d (by omega)]
    have hs : s < d.length := by omega
    rw [List.drop_eq_getElem_cons hs, List.take_succ_cons]
    have hgd : d.getD s z = d[s] := by
      rw [List.getD_eq_getElem?_getD, List.getElem?_eq_getElem hs]
      rfl
    rw [hgd]

/-- With step 1 every absolute index matches the filter. -/
theorem filter_stepHit_one (l : List Nat) : l.filter (stepHit 1) = l := by
  rw [List.filter_eq_self]
  intro a _
  simp [stepHit, Nat.mod_one]

/-- Characterisation of `Array::get_slice` on inputs that avoid the `usize`
underflow (`start` within the clamped range) and the `% 0` panic: the result
is exactly the in-order list of elements whose absolute index lies in
`[start, min stop size)` and is divisible by `step`, in a buffer sized
exactly to the matches. -/
theorem Arr.get_slice_spec (z : α) (a : Arr α) (start stop step : Nat) (hstep : step ≠ 0)
    (hstart : start ≤ min stop a.size) :
    a.get_slice z start stop step =
      .ok ⟨sliceVals z a step (List.range' start (min stop a.size - start))⟩ := by
  have hstop2 : (if stop > a.size then a.size else stop) = min stop a.size := by
    split
    · omega
    · omega
  have hmem : ∀ i ∈ List.range' start (min stop a.size - start), i < a.size := by
    intro i hi
    rw [List.mem_range'_1] at hi
    omega
  have hcnt0 : (List.range' start (min stop a.size - start)).countP (stepHit step)
      ≤ min stop a.size - start := by
    calc (List.range' start (min stop a.size - start)).countP (stepHit step)
        ≤ (List.range' start (min stop a.size - start)).length :=
          List.countP_le_length (stepHit step)
      _ = min stop a.size - start := List.length_range' _ _ _
  have hcnt : (List.range' start (min stop a.size - start)).countP (stepHit step)
      ≤ (List.replicate (min stop a.size - start) z).length := by
    rw [List.length_replicate]
    exact hcnt0
  have hloop := sliceLoop_ok z a step hstep (List.range' start (min stop a.size - start))
    [] (List.replicate (min stop a.size - start) z) hmem hcnt
  simp only [List.nil_append, List.length_nil] at hloop
  have hlen_vals : (sliceVals z a step (List.range' start (min stop a.size - start))).length
      = (List.range' start (min stop a.size - start)).countP (stepHit step) := by
    simp only [sliceVals, List.length_map, List.countP_eq_length_filter]
  unfold Arr.get_slice
  rw [hstop2, if_neg (by omega)]
  rw [show Arr.new z (min stop a.size - start) = ⟨List.replicate (min stop a.size - start) z⟩
    from rfl]
  simp only [hloop]
  rw [Nat.zero_add]
  have hres := Arr.resize_shrink z
    (a := ⟨sliceVals z a step (List.range' start (min stop a.size - start)) ++
      (List.replicate (min stop a.size - start) z).drop
        ((List.range' start (min stop a.size - start)).countP (stepHit step))⟩)
    (n := (List.range' start (min stop a.size - start)).countP (stepHit step))
    (by
      simp only [Arr.size_mk, List.length_append, List.length_drop, List.length_replicate,
        hlen_vals]
      omega)
  congr 1
  apply Arr.ext2
  rw [hres]
  show (sliceVals z a step (List.range' start (min stop a.size - start)) ++
      (List.replicate (min stop a.size - start) z).drop
        ((List.range' start (min stop a.size - start)).countP (stepHit step))).take
      ((List.range' start (min stop a.size - start)).countP (stepHit step))
    = sliceVals z a step (List.range' start (min stop a.size - start))
  rw [List.take_append_of_le_length (by rw [hlen_vals])]
  rw [List.take_of_length_le (by rw [hlen_vals])]

theorem Arr.size_eq (a : Arr α) : a.size = a.data.length := rfl

/-- Characterisation: `Array::split(index)` always succeeds and returns the prefix of length
`min index size` and the matching suffix, each in its own buffer. -/
theorem Arr.split_spec (z : α) (a : Arr α) (k : Nat) :
    a.split z k = .ok (⟨a.data.take (min k a.size)⟩, ⟨a.data.drop (min k a.size)⟩) := by
  have hL_le : min k a.size ≤ a.size := by omega
  have hlsize : (if k ≥ a.size then a.size else if k = 0 then 0 else k) = min k a.size := by
    split
    · omega
    · split
      · omega
      · omega
  have hrsize : (if k ≥ a.size then 0 else if k = 0 then a.size else a.size - k)
      = a.size - min k a.size := by
    split
    · omega
    · split
      · omega
      · omega
  have hs1 : a.get_slice z 0 (min k a.size) 1 = .ok ⟨a.data.take (min k a.size)⟩ := by
    rw [Arr.get_slice_spec z a 0 (min k a.size) 1 (by omega) (by omega)]
    congr 1
    apply Arr.ext2
    show sliceVals z a 1 (List.range' 0 (min (min k a.size) a.size - 0)) = _
    have hmm : min (min k a.size) a.size = min k a.size := by omega
    rw [hmm, Nat.sub_zero]
    unfold sliceVals
    rw [filter_stepHit_one,
      range'_map_getD z (min k a.size) 0 a.data (by rw [← Arr.size_eq]; omega),
      List.drop_zero]
  have hleft : (Arr.mk (a.data.take (min k a.size))).clone_into (Arr.new z (min k a.size))
      = .ok ⟨a.data.take (min k a.size)⟩ := by
    have hsz : (Arr.mk (a.data.take (min k a.size))).size = min k a.size := by
      rw [Arr.size_eq, List.length_take]
      show min (min k a.size) a.data.length = _
      rw [← Arr.size_eq]
      omega
    unfold Arr.clone_into
    rw [if_neg (by rw [hsz]; show ¬((Arr.new z (min k a.size)).size < min k a.size); rw [Arr.new, Arr.size_eq]; simp)]
    congr 1
    apply Arr.ext2
    show a.data.take (min k a.size) ++ (List.replicate (min k a.size) z).drop
      ((Arr.mk (a.data.take (min k a.size))).size) = _
    rw [hsz, List.drop_replicate, Nat.sub_self]
    simp
  have hs2 : a.get_slice z (min k a.size) a.size 1 = .ok ⟨a.data.drop (min k a.size)⟩ := by
    rw [Arr.get_slice_spec z a (min k a.size) a.size 1 (by omega) (by omega)]
    congr 1
    apply Arr.ext2
    show sliceVals z a 1 (List.range' (min k a.size) (min a.size a.size - min k a.size)) = _
    have hmm : min a.size a.size = a.size := by omega
    rw [hmm]
    unfold sliceVals
    rw [filter_stepHit_one,
      range'_map_getD z (a.size - min k a.size) (min k a.size) a.data (by rw [← Arr.size_eq]; omega)]
    rw [List.take_of_length_le (by rw [List.length_drop, ← Arr.size_eq])]
  have hright : (Arr.mk (a.data.drop (min k a.size))).clone_into (Arr.new z (a.size - min k a.size))
      = .ok ⟨a.data.drop (min k a.size)⟩ := by
    have hsz : (Arr.mk (a.data.drop (min k a.size))).size = a.size - min k a.size := by
      rw [Arr.size_eq, List.length_drop, ← Arr.size_eq]
    unfold Arr.clone_into
    rw [if_neg (by rw [hsz]; show ¬((Arr.new z (a.size - min k a.size)).size < _); rw [Arr.new, Arr.size_eq]; simp)]
    congr 1
    apply Arr.ext2
    show a.data.drop (min k a.size) ++ (List.replicate (a.size - min k a.size) z).drop
      ((Arr.mk (a.data.drop (min k a.size))).size) = _
    rw [hsz, List.drop_replicate, Nat.sub_self]
    simp
  unfold Arr.split
  simp only [hlsize, hrsize, hs1, hleft, hs2, hright]

/-- Folding the indexed writes of `Array::from_iter` over a buffer long
enough for the tail overwrites exactly the segment after the kept prefix. -/
theorem enumFrom_foldl_set :
    ∀ (l : List α) (k : Nat) (d : List α), d.length = k + l.length →
      ((List.enumFrom k l).foldl (fun (arr : Arr α) p => ⟨arr.data.set p.1 p.2⟩) ⟨d⟩).data
        = d.take k ++ l := by
  intro l
  induction l with
  | nil =>
    intro k d h
    rw [List.length_nil] at h
    simp [List.take_of_length_le (show d.length ≤ k by omega)]
  | cons x xs ih =>
    intro k d h
    rw [List.length_cons] at h
    rw [List.enumFrom_cons, List.foldl_cons]
    rw [ih (k + 1) (d.set k x) (by rw [List.length_set]; omega)]
    have hk : k < d.length := by omega
    rw [List.set_eq_take_append_cons_drop, if_pos hk]
    rw [List.take_append_eq_append_take]
    have h2len : (d.take k).length = k := by rw [List.length_take]; omega
    rw [List.take_of_length_le (by rw [h2len]; omega), h2len]
    have h3 : k + 1 - k = 1 := by omega
    rw [h3, List.take_succ_cons, List.take_zero]
    simp

/-- Characterisation: `Array::from_iter` produces exactly the input sequence. -/
theorem Arr.from_iter_data (z : α) (l : List α) : (Arr.from_iter z l).data = l := by
  unfold Arr.from_iter
  show ((List.enumFrom 0 l).foldl (fun (arr : Arr α) p => ⟨arr.data.set p.1 p.2⟩)
    ⟨List.replicate l.length z⟩).data = l
  rw [enumFrom_foldl_set l 0 (List.replicate l.length z) (by simp)]
  simp

/-! Behaviour of `List::grow`, `List::shrink`, `List::insert` and
`List::del` on states satisfying the representation invariant. -/

/-- Effect of `List::grow`: it appends zero-filled capacity and updates `cap` and the
buffer size together. -/
theorem RList.grow_data (z : α) {l : RList α} (h : ListInv l) :
    (l.grow z).arr.data = l.arr.data ++ List.replicate (growCap l.cap - l.cap) z := by
  obtain ⟨h1, h2⟩ := h
  have hsz : l.arr.size = l.cap := h2.symm
  show (l.arr.resize z (growCap l.cap)).data = _
  rw [Arr.resize_grow z l.arr (by rw [hsz]; exact Nat.le_of_lt (lt_growCap l.cap)), hsz]

theorem RList.grow_len (z : α) (l : RList α) : (l.grow z).len = l.len := rfl

theorem RList.grow_cap (z : α) (l : RList α) : (l.grow z).cap = growCap l.cap := rfl

theorem RList.grow_size (z : α) (l : RList α) : (l.grow z).arr.size = growCap l.cap :=
  Arr.resize_size z l.arr (growCap l.cap)

/-- Effect of `List::shrink`: it keeps the prefix of the buffer of the lower power-of-two
size and updates `cap` and the buffer size together. -/
theorem RList.shrink_spec (z : α) {l : RList α} (h : ListInv l) :
    l.shrink z = .ok ⟨⟨l.arr.data.take (lowerPow2 l.cap)⟩, l.len, lowerPow2 l.cap⟩ := by
  obtain ⟨h1, h2⟩ := h
  have hclone : l.arr.clone = l.arr := Arr.ext2 rfl
  have hsplit := Arr.split_spec z l.arr (lowerPow2 l.cap)
  have hsz : l.arr.size = l.cap := h2.symm
  have hmin : min (lowerPow2 l.cap) l.arr.size = lowerPow2 l.cap := by
    have := lowerPow2_le l.cap
    rw [hsz]
    omega
  rw [hmin] at hsplit
  unfold RList.shrink
  simp only [hclone, hsplit]

/-- The exact outcome of a legal `List::insert` (any index up to the logical
length, on a state satisfying the invariant): it succeeds, the length goes
up by one, the capacity grows exactly when `len + 1 ≥ cap`, the invariant is
preserved and the logical contents gain `v` at position `i`. -/
theorem RList.insert_full (z : α) {l : RList α} (hInv : ListInv l) {i : Nat} (hi : i ≤ l.len)
    (v : α) :
    ∃ l2 : RList α, l.insert z i v = .ok l2 ∧
      l2.len = l.len + 1 ∧
      l2.cap = (if l.len + 1 ≥ l.cap then growCap l.cap else l.cap) ∧
      ListInv l2 ∧
      l2.toModel = l.toModel.take i ++ v :: l.toModel.drop i := by
  obtain ⟨h1, h2⟩ := hInv
  have hszl : l.arr.size = l.cap := h2.symm
  have hdlen : l.arr.data.length = l.cap := by rw [← Arr.size_eq, hszl]
  -- facts about the intermediate state after the conditional grow
  obtain ⟨pad, hdata1, hlen1, hcap1, hsize1, hlt⟩ :
      ∃ pad, (if l.len + 1 ≥ l.cap then l.grow z else l).arr.data = l.arr.data ++ pad ∧
        (if l.len + 1 ≥ l.cap then l.grow z else l).len = l.len ∧
        (if l.len + 1 ≥ l.cap then l.grow z else l).cap
          = (if l.len + 1 ≥ l.cap then growCap l.cap else l.cap) ∧
        (if l.len + 1 ≥ l.cap then l.grow z else l).cap
          = (if l.len + 1 ≥ l.cap then l.grow z else l).arr.size ∧
        l.len < (if l.len + 1 ≥ l.cap then l.grow z else l).cap := by
    by_cases hg : l.len + 1 ≥ l.cap
    · refine ⟨List.replicate (growCap l.cap - l.cap) z, ?_, ?_, ?_, ?_, ?_⟩
      · rw [if_pos hg]
        exact RList.grow_data z ⟨h1, h2⟩
      · rw [if_pos hg]
        rfl
      · rw [if_pos hg, if_pos hg]
        rfl
      · rw [if_pos hg]
        rw [RList.grow_cap, RList.grow_size]
      · rw [if_pos hg, RList.grow_cap]
        have := lt_growCap l.cap
        omega
    · refine ⟨[], by rw [if_neg hg]; simp, by rw [if_neg hg], by rw [if_neg hg, if_neg hg],
        by rw [if_neg hg]; exact h2, by rw [if_neg hg]; omega⟩
  set l1 : RList α := if l.len + 1 ≥ l.cap then l.grow z else l with hl1
  have hs1 : l1.arr.size = l1.cap := hsize1.symm
  have hd1len : l1.arr.data.length = l1.cap := by rw [← Arr.size_eq, hs1]
  have hilt : i < l1.arr.size := by rw [hs1]; omega
  have hshift := Arr.shift_from_right z l1.arr i hilt
  have hAlen : (l1.arr.data.take i).length = i := by
    rw [List.length_take]
    omega
  have hget2 : (l1.arr.data.take i ++ z :: (l1.arr.data.drop i).take (l1.arr.size - i - 1))[i]?
      = some z := by
    have := getElem?_append_length (l1.arr.data.take i) z
      ((l1.arr.data.drop i).take (l1.arr.size - i - 1))
    rwa [hAlen] at this
  have hset : (Arr.mk (l1.arr.data.take i ++ z :: (l1.arr.data.drop i).take
      (l1.arr.size - i - 1))).set i v
      = .ok (z, ⟨(l1.arr.data.take i ++ z :: (l1.arr.data.drop i).take
        (l1.arr.size - i - 1)).set i v⟩) := Arr.set_ok v hget2
  have hsetdata : (l1.arr.data.take i ++ z :: (l1.arr.data.drop i).take
      (l1.arr.size - i - 1)).set i v
      = l1.arr.data.take i ++ v :: (l1.arr.data.drop i).take (l1.arr.size - i - 1) := by
    have := set_append_length (l1.arr.data.take i) z v
      ((l1.arr.data.drop i).take (l1.arr.size - i - 1))
    rwa [hAlen] at this
  refine ⟨⟨⟨l1.arr.data.take i ++ v :: (l1.arr.data.drop i).take (l1.arr.size - i - 1)⟩,
    l1.len + 1, l1.cap⟩, ?_, ?_, ?_, ?_, ?_⟩
  · unfold RList.insert
    rw [if_neg (by omega)]
    rw [← hl1]
    simp only [hshift, hset, hsetdata]
  · show l1.len + 1 = l.len + 1
    rw [hlen1]
  · show l1.cap = _
    exact hcap1
  · constructor
    · show l1.len + 1 ≤ l1.cap
      rw [hlen1]
      omega
    · show l1.cap = (Arr.mk (l1.arr.data.take i ++ v :: (l1.arr.data.drop i).take
        (l1.arr.size - i - 1))).size
      rw [Arr.size_eq]
      show l1.cap = (l1.arr.data.take i ++ v :: (l1.arr.data.drop i).take
        (l1.arr.size - i - 1)).length
      rw [List.length_append, List.length_cons, hAlen, List.length_take, List.length_drop,
        hd1len, hs1]
      have : l1.cap - i - 1 ≤ l1.cap - i := by omega
      omega
  · show (l1.arr.data.take i ++ v :: (l1.arr.data.drop i).take (l1.arr.size - i - 1)).take
      (l1.len + 1) = l.toModel.take i ++ v :: l.toModel.drop i
    rw [hlen1]
    rw [List.take_append_eq_append_take, hAlen]
    rw [List.take_of_length_le (by rw [hAlen]; omega)]
    have he1 : l.len + 1 - i = (l.len - i) + 1 := by omega
    rw [he1, List.take_succ_cons]
    -- reduce the data of the intermediate state to the original data
    have hA : l1.arr.data.take i = l.arr.data.take i := by
      rw [hdata1, List.take_append_of_le_length (by omega)]
    have hB : (l1.arr.data.drop i).take (l.len - i) = (l.arr.data.drop i).take (l.len - i) := by
      rw [hdata1, List.drop_append_eq_append_drop]
      rw [List.take_append_eq_append_take]
      have hz : l.len - i - (l.arr.data.drop i).length = 0 := by
        rw [List.length_drop, hdlen]
        omega
      rw [hz]
      simp
    have hBB : ((l1.arr.data.drop i).take (l1.arr.size - i - 1)).take (l.len - i)
        = (l1.arr.data.drop i).take (l.len - i) := by
      rw [List.take_take]
      have : min (l.len - i) (l1.arr.size - i - 1) = l.len - i := by
        rw [hs1]
        omega
      rw [this]
    rw [hBB, hA, hB]
    -- express both sides through the original logical contents
    unfold RList.toModel
    rw [List.take_take]
    have hmi : min i l.len = i := by omega
    rw [hmi]
    rw [List.drop_take]

/-- The exact outcome of a legal `List::del` (index strictly below the
logical length, on a state satisfying the invariant): it succeeds, returns
the element at `index`, the length drops by one, the capacity shrinks
exactly when `len < lowerPow2 cap`, the invariant is preserved and the
logical contents lose position `i`. -/
theorem RList.del_full (z : α) {l : RList α} (hInv : ListInv l) {i : Nat} (hi : i < l.len) :
    ∃ (v : α) (l2 : RList α), l.del z i = .ok (v, l2) ∧
      l.toModel[i]? = some v ∧
      l2.len = l.len - 1 ∧
      l2.cap = (if l.len < lowerPow2 l.cap then lowerPow2 l.cap else l.cap) ∧
      ListInv l2 ∧
      l2.toModel = l.toModel.take i ++ l.toModel.drop (i + 1) := by
  obtain ⟨h1, h2⟩ := hInv
  have hdlen : l.arr.data.length = l.cap := by rw [← Arr.size_eq, ← h2]
  -- facts about the intermediate state after the conditional shrink
  obtain ⟨l1, hl1run, hpre, hlen1, hcap1, hsize1, hlelen⟩ :
      ∃ l1 : RList α,
        (if l.len < lowerPow2 l.cap then l.shrink z else .ok l) = .ok l1 ∧
        l1.arr.data.take l.len = l.arr.data.take l.len ∧
        l1.len = l.len ∧
        l1.cap = (if l.len < lowerPow2 l.cap then lowerPow2 l.cap else l.cap) ∧
        l1.cap = l1.arr.size ∧
        l.len ≤ l1.arr.size := by
    by_cases hs : l.len < lowerPow2 l.cap
    · refine ⟨⟨⟨l.arr.data.take (lowerPow2 l.cap)⟩, l.len, lowerPow2 l.cap⟩, ?_, ?_, rfl, ?_, ?_, ?_⟩
      · rw [if_pos hs]
        exact RList.shrink_spec z ⟨h1, h2⟩
      · show (l.arr.data.take (lowerPow2 l.cap)).take l.len = _
        rw [List.take_take]
        have : min l.len (lowerPow2 l.cap) = l.len := by omega
        rw [this]
      · rw [if_pos hs]
      · show lowerPow2 l.cap = (Arr.mk (l.arr.data.take (lowerPow2 l.cap))).size
        rw [Arr.size_eq]
        show _ = (l.arr.data.take (lowerPow2 l.cap)).length
        rw [List.length_take, hdlen]
        have := lowerPow2_le l.cap
        omega
      · show l.len ≤ (Arr.mk (l.arr.data.take (lowerPow2 l.cap))).size
        rw [Arr.size_eq]
        show l.len ≤ (l.arr.data.take (lowerPow2 l.cap)).length
        rw [List.length_take, hdlen]
        have := lowerPow2_le l.cap
        omega
    · exact ⟨l, by rw [if_neg hs], rfl, rfl, by rw [if_neg hs], h2, by rw [← h2]; omega⟩
  have hd1len : l1.arr.data.length = l1.arr.size := (Arr.size_eq l1.arr).symm
  -- the returned element
  have hsome1 : l1.arr.data[i]? = l.arr.data[i]? := by
    have hta : (l1.arr.data.take l.len)[i]? = l1.arr.data[i]? := List.getElem?_take_of_lt hi
    have htb : (l.arr.data.take l.len)[i]? = l.arr.data[i]? := List.getElem?_take_of_lt hi
    rw [← hta, ← htb, hpre]
  have hilt : i < l.arr.data.length := by omega
  have hsome2 : l.arr.data[i]? = some l.arr.data[i] := List.getElem?_eq_getElem hilt
  have hget : l1.arr.get i = .ok l.arr.data[i] :=
    Arr.get_ok_of_some (by rw [hsome1, hsome2])
  -- the left shift
  have hshift := Arr.shift_from_left z l1.arr i (by omega)
  obtain ⟨rest, hshift_eq, hrest_len⟩ := hshift
  refine ⟨l.arr.data[i], ⟨⟨l1.arr.data.take i ++ l1.arr.data.drop (i + 1) ++ rest⟩,
    l1.len - 1, l1.cap⟩, ?_, ?_, ?_, ?_, ?_, ?_⟩
  · unfold RList.del
    rw [if_neg (by omega), if_neg (by omega)]
    simp only [hl1run, hget, hshift_eq]
  · unfold RList.toModel
    rw [List.getElem?_take_of_lt hi, hsome2]
  · show l1.len - 1 = l.len - 1
    rw [hlen1]
  · exact hcap1
  · constructor
    · show l1.len - 1 ≤ l1.cap
      rw [hlen1, hsize1]
      omega
    · show l1.cap = (Arr.mk (l1.arr.data.take i ++ l1.arr.data.drop (i + 1) ++ rest)).size
      rw [Arr.size_eq]
      show l1.cap = (l1.arr.data.take i ++ l1.arr.data.drop (i + 1) ++ rest).length
      rw [List.length_append, List.length_append, List.length_take, List.length_drop, hd1len]
      rw [hsize1]
      omega
  · show (l1.arr.data.take i ++ l1.arr.data.drop (i + 1) ++ rest).take (l1.len - 1)
      = l.toModel.take i ++ l.toModel.drop (i + 1)
    rw [hlen1]
    have hAlen : (l1.arr.data.take i).length = i := by
      rw [List.length_take, hd1len]
      omega
    have hABlen : (l1.arr.data.take i ++ l1.arr.data.drop (i + 1)).length
        = l1.arr.size - 1 := by
      rw [List.length_append, hAlen, List.length_drop, hd1len]
      omega
    rw [List.take_append_of_le_length (by rw [hABlen]; omega)]
    rw [List.take_append_eq_append_take, hAlen]
    rw [List.take_of_length_le (by rw [hAlen]; omega)]
    -- move from the intermediate buffer back to the original one
    have hA : l1.arr.data.take i = l.arr.data.take i := by
      have := congrArg (List.take i) hpre
      rwa [List.take_take, List.take_take, show min i l.len = i from by omega] at this
    have hB : (l1.arr.data.drop (i + 1)).take (l.len - 1 - i)
        = (l.arr.data.drop (i + 1)).take (l.len - 1 - i) := by
      have hstep1 := congrArg (List.drop (i + 1)) hpre
      rw [List.drop_take, List.drop_take] at hstep1
      have := congrArg (List.take (l.len - 1 - i)) hstep1
      rwa [List.take_take, List.take_take,
        show min (l.len - 1 - i) (l.len - (i + 1)) = l.len - 1 - i from by omega] at this
    rw [hA, hB]
    unfold RList.toModel
    rw [List.take_take, show min i l.len = i from by omega]
    rw [List.drop_take, show l.len - (i + 1) = l.len - 1 - i from by omega]

/-! Constructors, `extend` and the capacity policy. -/

theorem RList.toModel_length {l : RList α} (h : ListInv l) : l.toModel.length = l.len := by
  obtain ⟨h1, h2⟩ := h
  unfold RList.toModel
  rw [List.length_take, ← Arr.size_eq, ← h2]
  omega

theorem RList.new_inv (z : α) : ListInv (RList.new z) := by
  constructor
  · show 0 ≤ 4
    omega
  · show 4 = (Arr.new z 4).size
    rw [Arr.new, Arr.size_eq, List.length_replicate]

theorem RList.new_toModel (z : α) : (RList.new z).toModel = [] := rfl

theorem RList.with_capacity_inv (z : α) (cap : Nat) : ListInv (RList.with_capacity z cap) := by
  constructor
  · show 0 ≤ cap
    omega
  · show cap = (Arr.new z cap).size
    rw [Arr.new, Arr.size_eq, List.length_replicate]

theorem RList.from_iter_inv (z : α) (vs : List α) : ListInv (RList.from_iter z vs) := by
  constructor
  · show vs.length ≤ vs.length
    omega
  · show vs.length = (Arr.from_iter z vs).size
    rw [Arr.size_eq, Arr.from_iter_data]

theorem RList.from_iter_toModel (z : α) (vs : List α) : (RList.from_iter z vs).toModel = vs := by
  unfold RList.toModel
  show (Arr.from_iter z vs).data.take vs.length = vs
  rw [Arr.from_iter_data]
  exact List.take_of_length_le (Nat.le_refl _)

theorem RList.clone_inv {l : RList α} (h : ListInv l) : ListInv l.clone := by
  obtain ⟨h1, h2⟩ := h
  exact ⟨h1, h2⟩

/-- Effect of `List::push_back`, with every fact of `insert_full`. -/
theorem RList.push_back_full (z : α) {l : RList α} (hInv : ListInv l) (v : α) :
    ∃ l2 : RList α, l.push_back z v = .ok l2 ∧
      l2.len = l.len + 1 ∧
      l2.cap = (if l.len + 1 ≥ l.cap then growCap l.cap else l.cap) ∧
      ListInv l2 ∧
      l2.toModel = l.toModel ++ [v] := by
  obtain ⟨l2, hok, hlen, hcap, hinv, hmod⟩ := RList.insert_full z hInv (Nat.le_refl l.len) v
  refine ⟨l2, hok, hlen, hcap, hinv, ?_⟩
  rw [hmod]
  have hml := RList.toModel_length hInv
  rw [List.take_of_length_le (by omega), List.drop_eq_nil_of_le (by omega)]

/-- Effect of `Extend for List<T>`: it pushes the whole sequence to the back, preserving
the invariant. -/
theorem RList.extend_full (z : α) :
    ∀ (vs : List α) (l : RList α), ListInv l →
      ∃ L : RList α, l.extend z vs = .ok L ∧ ListInv L ∧
        L.len = l.len + vs.length ∧ L.toModel = l.toModel ++ vs := by
  intro vs
  induction vs with
  | nil =>
    intro l h
    exact ⟨l, rfl, h, by simp, by simp⟩
  | cons v vs ih =>
    intro l h
    obtain ⟨l2, hok, hlen2, hcap2, hinv2, hmod2⟩ := RList.push_back_full z h v
    obtain ⟨L, hokL, hinvL, hlenL, hmodL⟩ := ih l2 hinv2
    refine ⟨L, ?_, hinvL, ?_, ?_⟩
    · show (v :: vs).foldlM (fun acc w => acc.push_back z w) l = .ok L
      rw [List.foldlM_cons, hok]
      exact hokL
    · rw [hlenL, hlen2, List.length_cons]
      omega
    · rw [hmodL, hmod2, List.append_assoc, List.singleton_append]

/-- Capacity bookkeeping maintained by a run of `push_back`s from `new()`:
the capacity is a power of two, at least the initial 4, strictly above the
logical length, and (unless still the initial 4) at most twice the length. -/
def GoodCap (l : RList α) : Prop :=
  (∃ k, l.cap = 2 ^ k) ∧ 4 ≤ l.cap ∧ l.len < l.cap ∧ (l.cap = 4 ∨ l.cap ≤ 2 * l.len)

theorem goodCap_new (z : α) : GoodCap (RList.new z) := by
  refine ⟨⟨2, by show (4 : Nat) = 2 ^ 2; norm_num⟩, ?_, ?_, Or.inl rfl⟩
  · show 4 ≤ 4
    omega
  · show 0 < 4
    omega

theorem push_back_goodCap (z : α) {l : RList α} (hInv : ListInv l) (hg : GoodCap l) (v : α) :
    ∃ l2 : RList α, l.push_back z v = .ok l2 ∧ ListInv l2 ∧ GoodCap l2 ∧ l2.len = l.len + 1 := by
  obtain ⟨l2, hok, hlen, hcap, hinv, _⟩ := RList.push_back_full z hInv v
  obtain ⟨⟨k, hk⟩, h4, hlc, hdisj⟩ := hg
  by_cases ht : l.len + 1 ≥ l.cap
  · rw [if_pos ht] at hcap
    have hlencap : l.len + 1 = l.cap := by omega
    have hgrow : growCap l.cap = l.cap * 2 := by
      unfold growCap
      rw [hk, if_pos (is_power_of_two_two_pow k)]
    refine ⟨l2, hok, hinv, ⟨⟨k + 1, by rw [hcap, hgrow, hk]; ring⟩, by rw [hcap, hgrow]; omega,
      by rw [hlen, hcap, hgrow]; omega, Or.inr (by rw [hlen, hcap, hgrow]; omega)⟩, hlen⟩
  · rw [if_neg ht] at hcap
    refine ⟨l2, hok, hinv, ⟨⟨k, by rw [hcap, hk]⟩, by rw [hcap]; omega,
      by rw [hlen, hcap]; omega, ?_⟩, hlen⟩
    rcases hdisj with hc4 | hcle
    · exact Or.inl (by rw [hcap, hc4])
    · exact Or.inr (by rw [hcap, hlen]; omega)

/-- A state with `GoodCap` has exactly the capacity "smallest power of two
strictly greater than the length, at least the default 4". -/
theorem goodCap_formula {l : RList α} (hg : GoodCap l) :
    l.cap = max 4 (next_power_of_two (l.len + 1)) := by
  obtain ⟨⟨k, hk⟩, h4, hlc, hdisj⟩ := hg
  rcases hdisj with hc4 | hcle
  · have h22 : (2 : Nat) ^ 2 = 4 := by norm_num
    have hle : next_power_of_two (l.len + 1) ≤ 4 := by
      rw [← h22]
      exact next_power_of_two_min (l.len + 1) 2 (by rw [h22]; omega)
    omega
  · have hub : next_power_of_two (l.len + 1) ≤ l.cap := by
      rw [hk]
      exact next_power_of_two_min (l.len + 1) k (by rw [← hk]; omega)
    have hlb : l.cap ≤ next_power_of_two (l.len + 1) := by
      obtain ⟨c, hc⟩ := next_power_of_two_pow (l.len + 1)
      have hge : l.len + 1 ≤ next_power_of_two (l.len + 1) := le_next_power_of_two _
      have hk1 : 1 ≤ k := by
        by_contra hh
        have hk0 : k = 0 := by omega
        rw [hk0, pow_zero] at hk
        omega
      have hkk : 2 ^ k = 2 ^ (k - 1) * 2 := by
        rw [← pow_succ]
        congr 1
        omega
      have hhalf : 2 ^ (k - 1) < l.len + 1 := by
        rw [hk, hkk] at hcle
        omega
      have hcc : 2 ^ (k - 1) < 2 ^ c := by
        rw [← hc] at *
        omega
      have hklec : k - 1 < c := (Nat.pow_lt_pow_iff_right (by omega)).mp hcc
      rw [hk, hc]
      exact Nat.pow_le_pow_right (by omega) (by omega)
    omega

/-- Pushing a whole sequence to the back preserves `GoodCap`. -/
theorem extend_goodCap (z : α) :
    ∀ (vs : List α) (l : RList α), ListInv l → GoodCap l →
      ∃ L : RList α, l.extend z vs = .ok L ∧ ListInv L ∧ GoodCap L ∧
        L.len = l.len + vs.length := by
  intro vs
  induction vs with
  | nil =>
    intro l hInv hg
    exact ⟨l, rfl, hInv, hg, by simp⟩
  | cons v vs ih =>
    intro l hInv hg
    obtain ⟨l2, hok, hinv2, hg2, hlen2⟩ := push_back_goodCap z hInv hg v
    obtain ⟨L, hokL, hinvL, hgL, hlenL⟩ := ih l2 hinv2 hg2
    refine ⟨L, ?_, hinvL, hgL, ?_⟩
    · show (v :: vs).foldlM (fun acc w => acc.push_back z w) l = .ok L
      rw [List.foldlM_cons, hok]
      exact hokL
    · rw [hlenL, hlen2, List.length_cons]
      omega

/-! Iterator behaviour and invariant preservation on every successful
removal, including the `index == len` inputs admitted by the buggy bound
check. -/

/-- A successful shift never changes the allocation size. -/
theorem Arr.shift_from_size (z : α) (a : Arr α) (idx : Nat) (amt : Int) (b : Arr α)
    (h : a.shift_from z idx amt = .ok b) : b.size = a.size := by
  unfold Arr.shift_from at h
  split at h
  · simp at h
  · simp only [Except.ok.injEq] at h
    subst h
    rw [Arr.size_eq]
    show (writeFrom (writeFrom (List.replicate a.size z) 0 (a.data.take idx))
      ((idx : Int) + amt).toNat (a.data.drop idx)).length = a.size
    rw [writeFrom_length, writeFrom_length, List.length_replicate]

/-- Every successful `List::del` — including one at the out-of-contract
index `len` admitted by the `>` bound check — preserves the representation
invariant, decrements the length and shrinks the capacity exactly when the
threshold test fired. -/
theorem RList.del_inv (z : α) {l : RList α} {i : Nat} {v : α} {l2 : RList α}
    (hInv : ListInv l) (hok : l.del z i = .ok (v, l2)) :
    ListInv l2 ∧ l2.len = l.len - 1 ∧
    l2.cap = (if l.len < lowerPow2 l.cap then lowerPow2 l.cap else l.cap) := by
  obtain ⟨h1, h2⟩ := hInv
  unfold RList.del at hok
  split at hok
  · simp at hok
  · split at hok
    · simp at hok
    · by_cases hs : l.len < lowerPow2 l.cap
      · rw [if_pos hs, RList.shrink_spec z ⟨h1, h2⟩] at hok
        have hsz1 : (Arr.mk (l.arr.data.take (lowerPow2 l.cap))).size = lowerPow2 l.cap := by
          rw [Arr.size_eq]
          show (l.arr.data.take (lowerPow2 l.cap)).length = _
          rw [List.length_take, ← Arr.size_eq, ← h2]
          have := lowerPow2_le l.cap
          omega
        simp only [] at hok
        cases hget : (Arr.mk (l.arr.data.take (lowerPow2 l.cap))).get i with
        | error e =>
          rw [hget] at hok
          simp at hok
        | ok old =>
          rw [hget] at hok
          simp only [] at hok
          cases hshift : (Arr.mk (l.arr.data.take (lowerPow2 l.cap))).shift_from z (i + 1) (-1) with
          | error e =>
            rw [hshift] at hok
            simp at hok
          | ok arr2 =>
            rw [hshift] at hok
            simp only [Except.ok.injEq, Prod.mk.injEq] at hok
            obtain ⟨hv, hl2⟩ := hok
            subst hl2
            have hsz2 := Arr.shift_from_size z _ _ _ _ hshift
            refine ⟨⟨by show l.len - 1 ≤ lowerPow2 l.cap; omega, ?_⟩, rfl, by rw [if_pos hs]⟩
            show lowerPow2 l.cap = arr2.size
            rw [hsz2, hsz1]
      · rw [if_neg hs] at hok
        simp only [] at hok
        cases hget : l.arr.get i with
        | error e =>
          rw [hget] at hok
          simp at hok
        | ok old =>
          rw [hget] at hok
          simp only [] at hok
          cases hshift : l.arr.shift_from z (i + 1) (-1) with
          | error e =>
            rw [hshift] at hok
            simp at hok
          | ok arr2 =>
            rw [hshift] at hok
            simp only [Except.ok.injEq, Prod.mk.injEq] at hok
            obtain ⟨hv, hl2⟩ := hok
            subst hl2
            have hsz2 := Arr.shift_from_size z _ _ _ _ hshift
            refine ⟨⟨by show l.len - 1 ≤ l.cap; omega, ?_⟩, rfl, by rw [if_neg hs]⟩
            show l.cap = arr2.size
            rw [hsz2, ← h2]

/-- Running the iterator while the incremented cursor stays below `size`
yields the stored elements in order. -/
theorem iterSteps_some (a : Arr α) :
    ∀ (k c : Nat), c + k < a.size →
      iterSteps (⟨a, c⟩ : ArrayIter α) k = .ok (((a.data.drop c).take k).map some, ⟨a, c + k⟩) := by
  have hlen : a.data.length = a.size := (Arr.size_eq a).symm
  intro k
  induction k with
  | zero =>
    intro c h
    simp [iterSteps]
  | succ k ih =>
    intro c h
    have hc : c < a.data.length := by omega
    have hnext : (⟨a, c⟩ : ArrayIter α).next = .ok (some a.data[c], ⟨a, c + 1⟩) := by
      unfold ArrayIter.next
      rw [if_neg (by show ¬(c + 1 = a.size); omega)]
      have hidx : a.data[c + 1 - 1]? = some a.data[c] := by
        rw [show c + 1 - 1 = c from by omega]
        exact List.getElem?_eq_getElem hc
      rw [hidx]
    simp only [iterSteps, hnext, ih (c + 1) (by omega)]
    rw [List.drop_eq_getElem_cons hc, List.take_succ_cons, List.map_cons]
    rw [show c + 1 + k = c + (k + 1) from by omega]

theorem sliceVals_length (z : α) (a : Arr α) (step : Nat) (l : List Nat) :
    (sliceVals z a step l).length = l.countP (stepHit step) := by
  simp only [sliceVals, List.length_map, List.countP_eq_length_filter]

/-- Helper: every successful `List::insert` preserves the invariant. -/
theorem RList.insert_inv (z : α) {l l2 : RList α} {i : Nat} {v : α}
    (hInv : ListInv l) (hok : l.insert z i v = .ok l2) : ListInv l2 := by
  by_cases hi : i ≤ l.len
  · obtain ⟨l2b, hok2, _, _, hinv2, _⟩ := RList.insert_full z hInv hi v
    rw [hok2] at hok
    simp only [Except.ok.injEq] at hok
    rw [← hok]
    exact hinv2
  · exfalso
    unfold RList.insert at hok
    rw [if_pos (by omega)] at hok
    simp at hok

/-- Fixture for the witnesses: the list `[10, 20, 30]` with capacity 4. -/
def demoList : RList Nat :=
  ⟨⟨[10, 20, 30, 0]⟩, 3, 4⟩

/-! The claims. -/

/-- C1: the spec's (corrected) contract says `remove`/`del` must fail with
`IndexOutOfRange` unless `index < length`, and in particular that
`remove(length)` on a non-empty list is rejected leaving the list
unchanged.  The code's bound check is `index > self.len()`, which admits
`index == length`: on the one-element list `[42]`, `del(1)` is not
rejected — it first shrinks the buffer to capacity 2, reads the
zero-filled slot one past the last live element, shifts, and returns
`Ok(0)` with the list emptied.  This theorem evaluates the code at that
failing input. -/
theorem c1_del_admits_index_eq_len :
    (RList.new (0 : Nat)).push_back 0 42 = .ok ⟨⟨[42, 0, 0, 0]⟩, 1, 4⟩ ∧
    (RList.mk ⟨[42, 0, 0, 0]⟩ 1 4).del 0 1 = .ok (0, ⟨⟨[42, 0]⟩, 0, 2⟩) := by
  decide

/-- C2: the spec says both `pop_back` and `pop_front` on an empty container
fail with `EmptyContainer`, `pop_back`'s `length - 1` being special-cased
before it can underflow.  The code has no such special case:
`pop_back` computes `self.len - 1 = 0 - 1`, a `usize` underflow (panic),
while `pop_front` does reach the `EmptyContainer` error.  This theorem
evaluates the code at the failing input. -/
theorem c2_pop_back_empty_panics :
    (RList.new (0 : Nat)).pop_back 0 = .error .panicked ∧
    (RList.new (0 : Nat)).pop_front 0 = .error .emptyContainer := by
  decide

/-- C3 counterexample: after 4 `push_back`s from `new()` the claim predicts
capacity 4 (both as "the smallest power of two ≥ 4" and as "the initial
default for N ≤ 4"), but the code grows already when the new length equals
the capacity, so the capacity is 8. -/
theorem c3_counterexample :
    ((RList.new (0 : Nat)).extend 0 [1, 2, 3, 4]).map RList.cap = .ok 8 ∧
    max 4 (next_power_of_two 4) = 4 := by
  decide

/-- C3 (amended): capacity changes only through `insert`'s explicit grow
(exactly when `len + 1 ≥ cap`, to `growCap cap`) or `remove`'s explicit
shrink (exactly when `len < lowerPow2 cap`, to `lowerPow2 cap`); and after
any sequence of N `push_back`s from `new()` the capacity is the smallest
power of two strictly greater than N, with a floor of the default 4 —
`max 4 (next_power_of_two (N + 1))` — rather than the smallest power of two
≥ N of the original claim. -/
theorem c3_capacity_policy {α : Type} (z : α) :
    (∀ (l : RList α) (i : Nat) (v : α), ListInv l → i ≤ l.len →
      (l.insert z i v).map RList.cap
        = .ok (if l.len + 1 ≥ l.cap then growCap l.cap else l.cap)) ∧
    (∀ (l : RList α) (i : Nat), ListInv l → i < l.len →
      (l.del z i).map (fun p => (p.2).cap)
        = .ok (if l.len < lowerPow2 l.cap then lowerPow2 l.cap else l.cap)) ∧
    (∀ vs : List α, ((RList.new z).extend z vs).map RList.cap
      = .ok (max 4 (next_power_of_two (vs.length + 1)))) := by
  refine ⟨?_, ?_, ?_⟩
  · intro l i v hInv hi
    obtain ⟨l2, hok, _, hcap, _, _⟩ := RList.insert_full z hInv hi v
    rw [hok]
    show Except.ok l2.cap = _
    rw [hcap]
  · intro l i hInv hi
    obtain ⟨w, l2, hok, _, _, hcap, _, _⟩ := RList.del_full z hInv hi
    rw [hok]
    show Except.ok l2.cap = _
    rw [hcap]
  · intro vs
    obtain ⟨L, hok, _, hg, hlen⟩ := extend_goodCap z vs (RList.new z) (RList.new_inv z)
      (goodCap_new z)
    rw [hok]
    show Except.ok L.cap = _
    rw [goodCap_formula hg]
    have hlen2 : L.len = vs.length := by
      rw [hlen]
      show 0 + _ = _
      omega
    rw [hlen2]

theorem c3_capacity_policy_witness :
    (demoList.insert 0 1 99).map RList.cap
      = .ok (if demoList.len + 1 ≥ demoList.cap then growCap demoList.cap else demoList.cap) ∧
    ((RList.new (0 : Nat)).extend 0 [5, 6, 7, 8, 9]).map RList.cap
      = .ok (max 4 (next_power_of_two ([5, 6, 7, 8, 9].length + 1))) :=
  ⟨(c3_capacity_policy 0).1 demoList 1 99 (by decide) (by decide),
   (c3_capacity_policy 0).2.2 [5, 6, 7, 8, 9]⟩

/-- C4: on a list holding `[a0..an]` (any state satisfying the
representation invariant), `insert(i, v)` with `i ≤ length` succeeds and
the logical contents become `[a0..a(i-1), v, a_i..an]` with the length
incremented; `remove(i)` with `i < length` is the inverse — it returns
`a_i` and leaves the contents with position `i` deleted and the length
decremented. -/
theorem c4_shift_correct {α : Type} (z : α) :
    (∀ (l : RList α) (i : Nat) (v : α), ListInv l → i ≤ l.len →
      (l.insert z i v).map RList.toModel = .ok (l.toModel.take i ++ v :: l.toModel.drop i) ∧
      (l.insert z i v).map RList.len = .ok (l.len + 1)) ∧
    (∀ (l : RList α) (i : Nat), ListInv l → i < l.len →
      (l.del z i).map Prod.fst = .ok (l.toModel.getD i z) ∧
      (l.del z i).map (fun p => (p.2).toModel)
        = .ok (l.toModel.take i ++ l.toModel.drop (i + 1)) ∧
      (l.del z i).map (fun p => (p.2).len) = .ok (l.len - 1)) := by
  refine ⟨?_, ?_⟩
  · intro l i v hInv hi
    obtain ⟨l2, hok, hlen, _, _, hmod⟩ := RList.insert_full z hInv hi v
    rw [hok]
    constructor
    · show Except.ok l2.toModel = _
      rw [hmod]
    · show Except.ok l2.len = _
      rw [hlen]
  · intro l i hInv hi
    obtain ⟨w, l2, hok, hv, hlen, _, _, hmod⟩ := RList.del_full z hInv hi
    rw [hok]
    refine ⟨?_, ?_, ?_⟩
    · show Except.ok w = _
      congr 1
      rw [List.getD_eq_getElem?_getD, hv]
      rfl
    · show Except.ok l2.toModel = _
      rw [hmod]
    · show Except.ok l2.len = _
      rw [hlen]

theorem c4_shift_correct_witness :
    ((demoList.insert 0 1 99).map RList.toModel
      = .ok (demoList.toModel.take 1 ++ 99 :: demoList.toModel.drop 1)) ∧
    ((demoList.del 0 1).map Prod.fst = .ok (demoList.toModel.getD 1 0)) :=
  ⟨((c4_shift_correct 0).1 demoList 1 99 (by decide) (by decide)).1,
   ((c4_shift_correct 0).2 demoList 1 (by decide) (by decide)).1⟩

/-- C5: round-trip — pushing any finite sequence of values one at a time
with `push_back` into a `new()` list yields logical length equal to the
number of pushes, and `get(i)` returns the i-th pushed value unchanged for
every `i` in range; concretely, pushing the characters of "Hello" yields
length 5 with `get(0..5) = ['H','e','l','l','o']`, after which
`pop_front()` returns 'H' and leaves `['e','l','l','o']` at length 4. -/
theorem c5_round_trip {α : Type} (z : α) :
    (∀ (vs : List α) (i : Nat), i < vs.length →
      ((RList.new z).extend z vs).bind (fun L => L.get i) = .ok (vs.getD i z)) ∧
    (∀ vs : List α, ((RList.new z).extend z vs).map RList.len = .ok vs.length) ∧
    (((RList.new (Char.ofNat 0)).extend (Char.ofNat 0) ['H', 'e', 'l', 'l', 'o']).map
        RList.len = .ok 5 ∧
      ((RList.new (Char.ofNat 0)).extend (Char.ofNat 0) ['H', 'e', 'l', 'l', 'o']).bind
        (fun L => L.get 0) = .ok 'H' ∧
      ((RList.new (Char.ofNat 0)).extend (Char.ofNat 0) ['H', 'e', 'l', 'l', 'o']).bind
        (fun L => L.get 1) = .ok 'e' ∧
      ((RList.new (Char.ofNat 0)).extend (Char.ofNat 0) ['H', 'e', 'l', 'l', 'o']).bind
        (fun L => L.get 2) = .ok 'l' ∧
      ((RList.new (Char.ofNat 0)).extend (Char.ofNat 0) ['H', 'e', 'l', 'l', 'o']).bind
        (fun L => L.get 3) = .ok 'l' ∧
      ((RList.new (Char.ofNat 0)).extend (Char.ofNat 0) ['H', 'e', 'l', 'l', 'o']).bind
        (fun L => L.get 4) = .ok 'o' ∧
      ((RList.new (Char.ofNat 0)).extend (Char.ofNat 0) ['H', 'e', 'l', 'l', 'o']).bind
        (fun L => (L.pop_front (Char.ofNat 0)).map Prod.fst) = .ok 'H' ∧
      ((RList.new (Char.ofNat 0)).extend (Char.ofNat 0) ['H', 'e', 'l', 'l', 'o']).bind
        (fun L => (L.pop_front (Char.ofNat 0)).map (fun p => (p.2).len)) = .ok 4 ∧
      ((RList.new (Char.ofNat 0)).extend (Char.ofNat 0) ['H', 'e', 'l', 'l', 'o']).bind
        (fun L => (L.pop_front (Char.ofNat 0)).bind (fun p => (p.2).get 0)) = .ok 'e' ∧
      ((RList.new (Char.ofNat 0)).extend (Char.ofNat 0) ['H', 'e', 'l', 'l', 'o']).bind
        (fun L => (L.pop_front (Char.ofNat 0)).bind (fun p => (p.2).get 1)) = .ok 'l' ∧
      ((RList.new (Char.ofNat 0)).extend (Char.ofNat 0) ['H', 'e', 'l', 'l', 'o']).bind
        (fun L => (L.pop_front (Char.ofNat 0)).bind (fun p => (p.2).get 2)) = .ok 'l' ∧
      ((RList.new (Char.ofNat 0)).extend (Char.ofNat 0) ['H', 'e', 'l', 'l', 'o']).bind
        (fun L => (L.pop_front (Char.ofNat 0)).bind (fun p => (p.2).get 3)) = .ok 'o') := by
  have hmain : ∀ (vs : List α), ∃ L : RList α, (RList.new z).extend z vs = .ok L ∧
      ListInv L ∧ L.len = vs.length ∧ L.toModel = vs := by
    intro vs
    obtain ⟨L, hok, hinv, hlen, hmod⟩ := RList.extend_full z vs (RList.new z) (RList.new_inv z)
    refine ⟨L, hok, hinv, ?_, ?_⟩
    · rw [hlen]
      show 0 + _ = _
      omega
    · rw [hmod, RList.new_toModel, List.nil_append]
  refine ⟨?_, ?_, by decide⟩
  · intro vs i hi
    obtain ⟨L, hok, hinv, hlen, hmod⟩ := hmain vs
    rw [hok]
    show L.get i = _
    have hiL : i < L.len := by omega
    have hdata : L.arr.data[i]? = some (vs.getD i z) := by
      have htm : L.toModel[i]? = some (vs.getD i z) := by
        rw [hmod, List.getD_eq_getElem?_getD, List.getElem?_eq_getElem hi]
        rfl
      unfold RList.toModel at htm
      rwa [List.getElem?_take_of_lt hiL] at htm
    unfold RList.get
    rw [if_neg (by omega)]
    exact Arr.get_ok_of_some hdata
  · intro vs
    obtain ⟨L, hok, _, hlen, _⟩ := hmain vs
    rw [hok]
    show Except.ok L.len = _
    rw [hlen]

theorem c5_round_trip_witness :
    ((RList.new (0 : Nat)).extend 0 [7, 8, 9]).bind (fun L => L.get 1)
      = .ok ([7, 8, 9].getD 1 0) :=
  (c5_round_trip 0).1 [7, 8, 9] 1 (by decide)

/-- C6 counterexample: the claim quantifies over every `start ≤ stop` with
`step ≥ 1` and promises a buffer of the matching elements, but for
`start = 2`, `stop = 3`, `step = 1` on a buffer of size 1 the clamped stop
is 1 < `start`, and the allocation size `stop - start` underflows `usize` —
a panic, not a returned buffer. -/
theorem c6_counterexample :
    (Arr.mk [(0 : Nat)]).get_slice 0 2 3 1 = .error .panicked := by
  decide

/-- C6 (amended): with the extra hypothesis `start ≤ size` (ruling out the
`usize` underflow of `stop - start` after clamping), `get_slice` clamps
`stop` to `size` and returns a freshly allocated buffer holding, in
increasing index order, exactly the elements whose absolute index `i` lies
in `[start, stop)` and satisfies `i % step == 0`, the buffer sized exactly
to the number of matches; concretely `slice(2, 10, 3)` on `[0..9]` returns
the elements at absolute indices 3, 6, 9 — not 2, 5, 8. -/
theorem c6_get_slice_filter {α : Type} (z : α) :
    (∀ (a : Arr α) (start stop step : Nat), 1 ≤ step → start ≤ stop → start ≤ a.size →
      a.get_slice z start stop step
        = .ok ⟨sliceVals z a step (List.range' start (min stop a.size - start))⟩ ∧
      (a.get_slice z start stop step).map Arr.size
        = .ok ((List.range' start (min stop a.size - start)).countP (stepHit step))) ∧
    ((Arr.mk [0, 1, 2, 3, 4, 5, 6, 7, 8, 9] : Arr Nat).get_slice 0 2 10 3
      = .ok ⟨[3, 6, 9]⟩) := by
  refine ⟨?_, by decide⟩
  intro a start stop step hstep hss hsa
  have hspec := Arr.get_slice_spec z a start stop step (by omega) (by omega)
  refine ⟨hspec, ?_⟩
  rw [hspec]
  show Except.ok (Arr.mk (sliceVals z a step (List.range' start (min stop a.size - start)))).size
    = _
  congr 1
  rw [Arr.size_eq]
  exact sliceVals_length z a step _

theorem c6_get_slice_filter_witness :
    (Arr.mk [5, 6, 7] : Arr Nat).get_slice 0 1 3 2
      = .ok ⟨sliceVals 0 (Arr.mk [5, 6, 7]) 2 (List.range' 1 (min 3 (Arr.mk [5, 6, 7] : Arr Nat).size - 1))⟩ :=
  ((c6_get_slice_filter 0).1 (Arr.mk [5, 6, 7]) 1 3 2 (by decide) (by decide) (by decide)).1

/-- C7: `split(0)` yields an empty left buffer and the whole sequence on the
right; `split(k)` with `k ≥ size` yields the whole sequence on the left and
an empty right buffer; and for `0 < k < size`, `split(k)` yields buffers of
sizes `k` and `size - k` whose concatenation reproduces the original
sequence. -/
theorem c7_split_halves {α : Type} (z : α) :
    (∀ a : Arr α, a.split z 0 = .ok (⟨[]⟩, ⟨a.data⟩)) ∧
    (∀ (a : Arr α) (k : Nat), a.size ≤ k → a.split z k = .ok (⟨a.data⟩, ⟨[]⟩)) ∧
    (∀ (a : Arr α) (k : Nat), 0 < k → k < a.size →
      a.split z k = .ok (⟨a.data.take k⟩, ⟨a.data.drop k⟩) ∧
      (a.data.take k).length = k ∧
      (a.data.drop k).length = a.size - k ∧
      a.data.take k ++ a.data.drop k = a.data) := by
  refine ⟨?_, ?_, ?_⟩
  · intro a
    have h := Arr.split_spec z a 0
    rw [show min 0 a.size = 0 from by omega] at h
    rw [h, List.take_zero, List.drop_zero]
  · intro a k hk
    have h := Arr.split_spec z a k
    rw [show min k a.size = a.size from by omega] at h
    rw [h, List.take_of_length_le (Nat.le_of_eq (Arr.size_eq a).symm),
      List.drop_eq_nil_of_le (Nat.le_of_eq (Arr.size_eq a).symm)]
  · intro a k h0 hk
    have h := Arr.split_spec z a k
    rw [show min k a.size = k from by omega] at h
    refine ⟨h, ?_, ?_, List.take_append_drop k a.data⟩
    · rw [List.length_take, ← Arr.size_eq]
      omega
    · rw [List.length_drop, ← Arr.size_eq]

theorem c7_split_halves_witness :
    (Arr.mk [1, 2, 3] : Arr Nat).split 0 1
      = .ok (⟨[1, 2, 3].take 1⟩, ⟨[1, 2, 3].drop 1⟩) :=
  (((c7_split_halves 0).2.2 (Arr.mk [1, 2, 3]) 1 (by decide) (by decide))).1

/-- C8 counterexample: the claim says `clone_from(other)` fails (with
`InsufficientSpace`) exactly when the destination is smaller than the
source and that on success the destination is well-defined; but with a
destination of size 2 and a source of size 1 the destination is not
smaller, no `InsufficientSpace` is raised, and the copy of
`self.size = 2` elements reads one element past the end of the size-1
source — undefined behaviour rather than a clean success. -/
theorem c8_counterexample :
    (Arr.mk [(0 : Nat), 0]).clone_from ⟨[5]⟩ = .error .undefinedBehaviour ∧
    ¬((Arr.mk [(0 : Nat), 0]).size < (Arr.mk [(5 : Nat)]).size) := by
  decide

/-- C8 (amended): `clone_into(other)` fails with `InsufficientSpace` iff
`other.size < self.size` and otherwise copies its `self.size` elements onto
the front of `other`, leaving the rest of `other` unchanged;
`clone_from(other)` fails with `InsufficientSpace` iff
`self.size < other.size`, is a well-defined full copy only when the sizes
are equal, and performs an out-of-bounds read of `other` whenever
`other.size < self.size` (it copies `self.size`, the destination's size,
elements from the source). -/
theorem c8_clone_copies {α : Type} :
    (∀ a b : Arr α, a.clone_into b = .error .insufficientSpace ↔ b.size < a.size) ∧
    (∀ a b : Arr α, a.size ≤ b.size →
      a.clone_into b = .ok ⟨a.data ++ b.data.drop a.size⟩ ∧
      (a.data ++ b.data.drop a.size).take a.size = a.data) ∧
    (∀ a b : Arr α, a.clone_from b = .error .insufficientSpace ↔ a.size < b.size) ∧
    (∀ a b : Arr α, a.size = b.size → a.clone_from b = .ok ⟨b.data⟩) ∧
    (∀ a b : Arr α, b.size < a.size → a.clone_from b = .error .undefinedBehaviour) := by
  refine ⟨?_, ?_, ?_, ?_, ?_⟩
  · intro a b
    unfold Arr.clone_into
    constructor
    · intro h
      by_contra hc
      rw [if_neg hc] at h
      simp at h
    · intro h
      rw [if_pos h]
  · intro a b h
    unfold Arr.clone_into
    refine ⟨by rw [if_neg (by omega)], ?_⟩
    rw [List.take_append_of_le_length (Nat.le_of_eq (Arr.size_eq a)),
      List.take_of_length_le (Nat.le_of_eq (Arr.size_eq a).symm)]
  · intro a b
    unfold Arr.clone_from
    constructor
    · intro h
      by_contra hc
      rw [if_neg hc] at h
      split at h
      · simp at h
      · simp at h
    · intro h
      rw [if_pos h]
  · intro a b h
    unfold Arr.clone_from
    rw [if_neg (by omega), if_neg (by omega)]
  · intro a b h
    unfold Arr.clone_from
    rw [if_neg (by omega), if_pos h]

theorem c8_clone_copies_witness :
    ((Arr.mk [1, 2] : Arr Nat).clone_into ⟨[0, 0, 0]⟩
      = .ok ⟨[1, 2] ++ [0, 0, 0].drop (Arr.mk [1, 2] : Arr Nat).size⟩) ∧
    ((Arr.mk [(9 : Nat)]).clone_from ⟨[4]⟩ = .ok ⟨[4]⟩) :=
  ⟨((c8_clone_copies).2.1 (Arr.mk [1, 2]) ⟨[0, 0, 0]⟩ (by decide)).1,
   (c8_clone_copies).2.2.2.1 (Arr.mk [(9 : Nat)]) ⟨[4]⟩ (by decide)⟩

/-- C9: every public `List` operation preserves the invariant
`length ≤ capacity == buffer size`; in particular `grow` and `shrink`
always update the `cap` field and the underlying buffer size together. -/
theorem c9_invariant_preserved {α : Type} (z : α) :
    ListInv (RList.new z) ∧
    (∀ c : Nat, ListInv (RList.with_capacity z c)) ∧
    (∀ vs : List α, ListInv (RList.from_iter z vs)) ∧
    (∀ l : RList α, ListInv l → ListInv l.clone) ∧
    (∀ (l l2 : RList α) (i : Nat) (v : α), ListInv l → l.insert z i v = .ok l2 → ListInv l2) ∧
    (∀ (l l2 : RList α) (i : Nat) (v : α), ListInv l → l.del z i = .ok (v, l2) → ListInv l2) ∧
    (∀ (l l2 : RList α) (v : α), ListInv l → l.push_front z v = .ok l2 → ListInv l2) ∧
    (∀ (l l2 : RList α) (v : α), ListInv l → l.push_back z v = .ok l2 → ListInv l2) ∧
    (∀ (l l2 : RList α) (i : Nat) (v : α), ListInv l → l.push z i v = .ok l2 → ListInv l2) ∧
    (∀ (l l2 : RList α) (i : Nat) (v : α), ListInv l → l.pop z i = .ok (v, l2) → ListInv l2) ∧
    (∀ (l l2 : RList α) (v : α), ListInv l → l.pop_back z = .ok (v, l2) → ListInv l2) ∧
    (∀ (l l2 : RList α) (v : α), ListInv l → l.pop_front z = .ok (v, l2) → ListInv l2) ∧
    (∀ (l l2 : RList α) (vs : List α), ListInv l → l.extend z vs = .ok l2 → ListInv l2) ∧
    (∀ l : RList α, ListInv l →
      ListInv (l.grow z) ∧ (l.grow z).cap = (l.grow z).arr.size) ∧
    (∀ (l l2 : RList α), ListInv l → l.shrink z = .ok l2 → l2.cap = l2.arr.size) := by
  refine ⟨RList.new_inv z, RList.with_capacity_inv z, RList.from_iter_inv z,
    fun l h => RList.clone_inv h, ?_, ?_, ?_, ?_, ?_, ?_, ?_, ?_, ?_, ?_, ?_⟩
  · intro l l2 i v hInv hok
    exact RList.insert_inv z hInv hok
  · intro l l2 i v hInv hok
    exact (RList.del_inv z hInv hok).1
  · intro l l2 v hInv hok
    exact RList.insert_inv z hInv hok
  · intro l l2 v hInv hok
    exact RList.insert_inv z hInv hok
  · intro l l2 i v hInv hok
    exact RList.insert_inv z hInv hok
  · intro l l2 i v hInv hok
    exact (RList.del_inv z hInv hok).1
  · intro l l2 v hInv hok
    unfold RList.pop_back at hok
    by_cases h0 : l.len = 0
    · rw [if_pos h0] at hok
      simp at hok
    · rw [if_neg h0] at hok
      exact (RList.del_inv z hInv hok).1
  · intro l l2 v hInv hok
    exact (RList.del_inv z hInv hok).1
  · intro l l2 vs hInv hok
    obtain ⟨L, hok2, hinv2, _, _⟩ := RList.extend_full z vs l hInv
    rw [hok2] at hok
    simp only [Except.ok.injEq] at hok
    rw [← hok]
    exact hinv2
  · intro l hInv
    obtain ⟨h1, _⟩ := hInv
    constructor
    · constructor
      · rw [RList.grow_len, RList.grow_cap]
        have := lt_growCap l.cap
        omega
      · rw [RList.grow_cap, RList.grow_size]
    · rw [RList.grow_cap, RList.grow_size]
  · intro l l2 hInv hok
    rw [RList.shrink_spec z hInv] at hok
    simp only [Except.ok.injEq] at hok
    rw [← hok]
    show lowerPow2 l.cap = (Arr.mk (l.arr.data.take (lowerPow2 l.cap))).size
    rw [Arr.size_eq]
    show _ = (l.arr.data.take (lowerPow2 l.cap)).length
    rw [List.length_take, ← Arr.size_eq, ← hInv.2]
    have := lowerPow2_le l.cap
    omega

theorem c9_invariant_preserved_witness :
    ListInv (RList.new (0 : Nat)) ∧
    ListInv (RList.mk ⟨[10, 99, 20, 30, 0, 0, 0, 0]⟩ 4 8) :=
  ⟨(c9_invariant_preserved 0).1,
   (c9_invariant_preserved 0).2.2.2.2.1 demoList ⟨⟨[10, 99, 20, 30, 0, 0, 0, 0]⟩, 4, 8⟩ 1 99
     (by decide) (by decide)⟩

/-- C10: for every buffer of size at least 1, the consuming iterator yields
exactly `size - 1` items — the elements at indices 0 through `size - 2`, in
order — and the next call after them returns `none`; the element at the
last index is never yielded (the cursor is incremented before the
termination comparison). -/
theorem c10_iter_drops_last {α : Type} :
    ∀ a : Arr α, 1 ≤ a.size →
      iterSteps a.into_iter (a.size - 1)
        = .ok ((a.data.take (a.size - 1)).map some, ⟨a, a.size - 1⟩) ∧
      (ArrayIter.mk a (a.size - 1)).next = .ok (none, ⟨a, a.size⟩) := by
  intro a h
  constructor
  · have hsteps := iterSteps_some a (a.size - 1) 0 (by omega)
    rw [show (0 : Nat) + (a.size - 1) = a.size - 1 from by omega, List.drop_zero] at hsteps
    exact hsteps
  · unfold ArrayIter.next
    rw [if_pos (by show a.size - 1 + 1 = a.size; omega)]
    rw [show a.size - 1 + 1 = a.size from by omega]

theorem c10_iter_drops_last_witness :
    iterSteps (Arr.mk [5, 6] : Arr Nat).into_iter ((Arr.mk [5, 6] : Arr Nat).size - 1)
      = .ok (([5, 6].take ((Arr.mk [5, 6] : Arr Nat).size - 1)).map some,
             ⟨⟨[5, 6]⟩, (Arr.mk [5, 6] : Arr Nat).size - 1⟩) :=
  (c10_iter_drops_last (Arr.mk [5, 6]) (by decide)).1
